import Mathlib

/-!
# Verification of the surface-discovery pipeline

Shallow embedding of the core of the `surface-discovery-poc` repository:
the bounded recursive crawler (`src/discovery/crawler/deep_crawler.py`),
the URL extractor (`src/discovery/crawler/url_extractor.py`), the pipeline
orchestrator (`src/discovery/core.py`), the statistics aggregator
(`src/discovery/models/discovery.py`), the path-parameter extractor
(`src/discovery/stages/authenticated.py`) and the CDN correlation
(`src/discovery/stages/enrichment.py`).

URLs are handled by Python's `urllib.parse`; the slice of that library the
repository calls (`urlparse`, `urljoin`, `urlunparse`) is modelled first,
character by character, following CPython's `Lib/urllib/parse.py`.
-/

namespace SurfaceDiscovery

/-! ## ASCII helpers (CPython `str.lower`, `scheme_chars`) -/

/-- ASCII lower-casing of a single character, as Python's `str.lower`
acts on the ASCII characters that can appear in a URL scheme. -/
def lowerChar (c : Char) : Char :=
  if c = 'A' then 'a' else if c = 'B' then 'b' else if c = 'C' then 'c'
  else if c = 'D' then 'd' else if c = 'E' then 'e' else if c = 'F' then 'f'
  else if c = 'G' then 'g' else if c = 'H' then 'h' else if c = 'I' then 'i'
  else if c = 'J' then 'j' else if c = 'K' then 'k' else if c = 'L' then 'l'
  else if c = 'M' then 'm' else if c = 'N' then 'n' else if c = 'O' then 'o'
  else if c = 'P' then 'p' else if c = 'Q' then 'q' else if c = 'R' then 'r'
  else if c = 'S' then 's' else if c = 'T' then 't' else if c = 'U' then 'u'
  else if c = 'V' then 'v' else if c = 'W' then 'w' else if c = 'X' then 'x'
  else if c = 'Y' then 'y' else if c = 'Z' then 'z' else c

/-- ASCII lower-casing of a character list. -/
def lowerStr (s : List Char) : List Char := s.map lowerChar

/-- ASCII letter test (`url[0].isascii() and url[0].isalpha()` in CPython). -/
def isAsciiAlpha (c : Char) : Bool :=
  ('A' ≤ c && c ≤ 'Z') || ('a' ≤ c && c ≤ 'z')

/-- Member of CPython's `scheme_chars` (ASCII letters, digits, `+`, `-`, `.`). -/
def isSchemeChar (c : Char) : Bool :=
  isAsciiAlpha c || ('0' ≤ c && c ≤ '9') || c = '+' || c = '-' || c = '.'

/-! ## List-of-char splitters used to express CPython's string operations -/

/-- Split at the first occurrence of `c` (Python `s.split(c, 1)` /
`s.find(c)` followed by slicing); the separator is dropped. -/
def splitOnFirst (c : Char) : List Char → Option (List Char × List Char)
  | [] => none
  | x :: xs =>
    if x = c then some ([], xs)
    else match splitOnFirst c xs with
      | some (a, b) => some (x :: a, b)
      | none => none

/-- Break at the first character in `stops`: returns the prefix containing
no stop character and the suffix starting at the first stop character. -/
def breakAtAny (stops : List Char) : List Char → List Char × List Char
  | [] => ([], [])
  | x :: xs =>
    if x ∈ stops then ([], x :: xs)
    else
      let p := breakAtAny stops xs
      (x :: p.1, p.2)

/-- Split at the last occurrence of `c` (Python `s.rfind(c)` with slicing):
`some (a, b)` with the input equal to `a ++ c :: b` and `c ∉ b`. -/
def breakAtLast (c : Char) : List Char → Option (List Char × List Char)
  | [] => none
  | x :: xs =>
    match breakAtLast c xs with
    | some (a, b) => some (x :: a, b)
    | none => if x = c then some ([], xs) else none

/-- Python `str.split(sep)` for a one-character separator: always returns a
non-empty list of (possibly empty) pieces. -/
def splitOnChar (c : Char) : List Char → List (List Char)
  | [] => [[]]
  | x :: xs =>
    let r := splitOnChar c xs
    if x = c then [] :: r
    else
      match r with
      | h :: t => (x :: h) :: t
      | [] => [[x]]

/-- Python `sep.join(pieces)` for a one-character separator. -/
def joinWithChar (c : Char) (l : List (List Char)) : List Char :=
  List.intercalate [c] l

/-! ## CPython `urllib.parse.urlsplit` / `urlparse` -/

/-- Result of `urlsplit` (scheme, netloc, path, query, fragment). -/
structure PySplitUrl where
  scheme : List Char
  netloc : List Char
  path : List Char
  query : List Char
  fragment : List Char
deriving DecidableEq, Repr

/-- Result of `urlparse` (`urlsplit` plus the `params` component split
from the last path segment). -/
structure PyParseUrl where
  scheme : List Char
  netloc : List Char
  path : List Char
  params : List Char
  query : List Char
  fragment : List Char
deriving DecidableEq, Repr

/-- CPython removes `\t`, `\r`, `\n` anywhere and strips leading
C0-control/space characters before parsing a URL. -/
def cleanUrl (cs : List Char) : List Char :=
  (cs.dropWhile (fun c => c.toNat ≤ 32)).filter
    (fun c => !(c = '\t' || c = '\r' || c = '\n'))

/-- `netloc` bracket mismatch: the condition under which CPython's
`urlsplit` raises `ValueError("Invalid IPv6 URL")`.  (The further
validation of the bracketed host content performed by
`_check_bracketed_host` is not modelled: netlocs with matched brackets
are accepted.) -/
def bracketMismatch (netloc : List Char) : Bool :=
  netloc.contains '[' != netloc.contains ']'

/-- CPython `urlsplit(url, scheme=dscheme, allow_fragments=True)`, without
the bracket-mismatch `ValueError` (checked separately where the repository
wraps the call in `try/except`). -/
def pyUrlsplit (input : List Char) (dscheme : List Char) : PySplitUrl :=
  let url := cleanUrl input
  -- scheme detection: first ':' with a valid non-empty scheme before it
  let sp : List Char × List Char :=
    match splitOnFirst ':' url with
    | some (pre, post) =>
      match pre with
      | [] => (dscheme, url)
      | p0 :: _ =>
        if isAsciiAlpha p0 && pre.all isSchemeChar then (lowerStr pre, post)
        else (dscheme, url)
    | none => (dscheme, url)
  let scheme := sp.1
  let rest := sp.2
  -- netloc: present only when the remainder starts with '//'
  let np : List Char × List Char :=
    if rest.take 2 = ['/', '/'] then breakAtAny ['/', '?', '#'] (rest.drop 2)
    else ([], rest)
  let netloc := np.1
  let rest2 := np.2
  -- fragment split (first '#'), then query split (first '?')
  let fp : List Char × List Char :=
    match splitOnFirst '#' rest2 with
    | some (a, b) => (a, b)
    | none => (rest2, [])
  let qp : List Char × List Char :=
    match splitOnFirst '?' fp.1 with
    | some (a, b) => (a, b)
    | none => (fp.1, [])
  ⟨scheme, netloc, qp.1, qp.2, fp.2⟩

/-- Schemes for which `urlparse` splits `params` (CPython `uses_params`). -/
def usesParams : List String :=
  ["", "ftp", "hdl", "prospero", "http", "imap", "https", "shttp", "rtsp",
   "rtspu", "sip", "sips", "mms", "sftp", "tel"]

/-- CPython `_splitparams`: split `params` off the last path segment. -/
def splitParams (p : List Char) : List Char × List Char :=
  if '/' ∈ p then
    match breakAtLast '/' p with
    | some (a, b) =>
      match splitOnFirst ';' b with
      | some (b1, b2) => (a ++ '/' :: b1, b2)
      | none => (p, [])
    | none => (p, [])
  else
    match splitOnFirst ';' p with
    | some (p1, p2) => (p1, p2)
    | none => (p, [])

/-- CPython `urlparse(url, scheme=dscheme, allow_fragments=True)`. -/
def pyUrlparse (input : List Char) (dscheme : List Char) : PyParseUrl :=
  let s := pyUrlsplit input dscheme
  if s.scheme.asString ∈ usesParams ∧ ';' ∈ s.path then
    let pp := splitParams s.path
    ⟨s.scheme, s.netloc, pp.1, pp.2, s.query, s.fragment⟩
  else
    ⟨s.scheme, s.netloc, s.path, [], s.query, s.fragment⟩

/-! ## CPython `urlunsplit` / `urlunparse` / `urljoin` -/

/-- CPython `urlunsplit`. -/
def pyUrlunsplit (scheme netloc url query fragment : List Char) : List Char :=
  let url1 :=
    if netloc ≠ [] ∨ (url ≠ [] ∧ url.take 2 = ['/', '/']) then
      let u := if url ≠ [] ∧ url.take 1 ≠ ['/'] then '/' :: url else url
      '/' :: '/' :: netloc ++ u
    else url
  let url2 := if scheme ≠ [] then scheme ++ ':' :: url1 else url1
  let url3 := if query ≠ [] then url2 ++ '?' :: query else url2
  if fragment ≠ [] then url3 ++ '#' :: fragment else url3

/-- CPython `urlunparse`. -/
def pyUrlunparse (scheme netloc path params query fragment : List Char) :
    List Char :=
  let url := if params ≠ [] then path ++ ';' :: params else path
  pyUrlunsplit scheme netloc url query fragment

/-- Schemes treated as relative-capable by `urljoin` (CPython
`uses_relative`). -/
def usesRelative : List String :=
  ["", "ftp", "http", "gopher", "nntp", "imap", "wais", "file", "https",
   "shttp", "mms", "prospero", "rtsp", "rtspu", "sftp", "svn", "svn+ssh",
   "ws", "wss"]

/-- Schemes that carry a netloc for `urljoin` (CPython `uses_netloc`). -/
def usesNetloc : List String :=
  ["", "ftp", "http", "gopher", "nntp", "telnet", "imap", "wais", "file",
   "mms", "https", "shttp", "snews", "prospero", "rtsp", "rtspu", "rsync",
   "svn", "svn+ssh", "sftp", "nfs", "git", "git+ssh", "ws", "wss"]

/-- Keep the first and last element, filter empty pieces from the middle
(CPython `segments[1:-1] = filter(None, segments[1:-1])`). -/
def filterMiddleEmpties (l : List (List Char)) : List (List Char) :=
  match l with
  | [] => []
  | a :: rest =>
    match rest.getLast? with
    | none => [a]
    | some lastv => a :: ((rest.dropLast.filter (fun s => s ≠ [])) ++ [lastv])

/-- Dot-segment resolution loop of CPython `urljoin` (`resolved_path`). -/
def resolveSegments (segments : List (List Char)) : List (List Char) :=
  let resolved := segments.foldl
    (fun acc seg =>
      if seg = ['.', '.'] then acc.dropLast
      else if seg = ['.'] then acc
      else acc ++ [seg]) []
  if segments.getLast? = some ['.'] ∨ segments.getLast? = some ['.', '.'] then
    resolved ++ [[]]
  else resolved

/-- CPython `urljoin(base, url)` on character lists. -/
def pyUrljoinL (base url : List Char) : List Char :=
  if base = [] then url
  else if url = [] then base
  else
    let b := pyUrlparse base []
    let r := pyUrlparse url b.scheme
    if r.scheme ≠ b.scheme ∨ r.scheme.asString ∉ usesRelative then url
    else if r.scheme.asString ∈ usesNetloc ∧ r.netloc ≠ [] then
      pyUrlunparse r.scheme r.netloc r.path r.params r.query r.fragment
    else
      let netloc := if r.scheme.asString ∈ usesNetloc then b.netloc else r.netloc
      if r.path = [] ∧ r.params = [] then
        let query := if r.query = [] then b.query else r.query
        pyUrlunparse r.scheme netloc b.path b.params query r.fragment
      else
        let baseParts0 := splitOnChar '/' b.path
        let baseParts :=
          if baseParts0.getLast? ≠ some [] then baseParts0.dropLast else baseParts0
        let segments :=
          if r.path.take 1 = ['/'] then splitOnChar '/' r.path
          else filterMiddleEmpties (baseParts ++ splitOnChar '/' r.path)
        let joined := joinWithChar '/' (resolveSegments segments)
        let path := if joined = [] then ['/'] else joined
        pyUrlunparse r.scheme netloc path r.params r.query r.fragment

/-- `urljoin` on strings. -/
def pyUrljoin (base url : String) : String :=
  (pyUrljoinL base.toList url.toList).asString

/-! ## `DeepURLCrawler` (src/discovery/crawler/deep_crawler.py) -/

/-- `DeepURLCrawler._normalize_url`: keep scheme, netloc, path and query,
drop params and fragment.  The `try/except` around `urlparse` is modelled
by the bracket-mismatch check (the condition under which `urlparse`
raises); on an exception the input is returned unchanged. -/
def normalizeUrl (u : String) : String :=
  let p := pyUrlparse u.toList []
  if bracketMismatch p.netloc then u
  else
    ((p.scheme ++ ':' :: '/' :: '/' :: p.netloc ++ p.path) ++
      (if p.query ≠ [] then '?' :: p.query else [])).asString

/-- `DeepURLCrawler._is_same_domain`: netloc equality; `False` when
`urlparse` raises on either argument. -/
def isSameDomain (url1 url2 : String) : Bool :=
  let p1 := pyUrlparse url1.toList []
  let p2 := pyUrlparse url2.toList []
  if bracketMismatch p1.netloc || bracketMismatch p2.netloc then false
  else p1.netloc = p2.netloc

/-- The link material of one rendered page, as returned by the browser
evaluation queries in `_extract_urls` / `URLExtractor.extract_from_page`:
anchor `href`s, form `action`s, absolute URLs found in `onclick`
attributes, the `meta refresh` redirect target (already stripped to the
part after `url=`), and iframe `src`s. -/
structure Page where
  anchors : List String
  formActions : List String
  onclickUrls : List String
  metaRefresh : Option String
  iframeSrcs : List String
deriving Repr

/-- Python-set insertion: append if not already present. -/
def insertNew {α : Type _} [DecidableEq α] (x : α) (l : List α) : List α :=
  if x ∈ l then l else l ++ [x]

/-- Deduplicate keeping the first occurrence (a Python `set` built by
successive `add`/`update`; iteration order of Python sets is unspecified,
first-insertion order is fixed here as the representative order). -/
def dedupKeepFirst {α : Type _} [DecidableEq α] (l : List α) : List α :=
  l.foldl (fun acc x => insertNew x acc) []

/-- `DeepURLCrawler._extract_urls`: anchors and non-empty form actions are
passed through `urljoin` with the page URL as base, `onclick` URLs are
added raw; empty strings are filtered and all entries normalized. -/
def crawlerExtractUrls (page : Page) (baseUrl : String) : List String :=
  let urls :=
    dedupKeepFirst
      (page.anchors.map (fun l => pyUrljoin baseUrl l) ++
       (page.formActions.filter (fun a => a ≠ "")).map
         (fun a => pyUrljoin baseUrl a) ++
       page.onclickUrls)
  dedupKeepFirst ((urls.filter (fun u => u ≠ "")).map normalizeUrl)

/-- A finite web: the pages the browser can navigate to.  A URL absent
from the web models a navigation failure (`page.goto` raising), which
`_crawl_url` catches after having marked the URL visited. -/
def Web := List (String × Page)

/-- Look up the page served at `url`. -/
def webLookup (web : Web) (url : String) : Option Page :=
  (web.find? (fun p => p.1 = url)).map (fun p => p.2)

/-- Crawler state: the `visited_urls` and `discovered_urls` sets of
`DeepURLCrawler`, plus an instrumentation log of the navigations
performed, with the recursion depth of each. -/
structure CrawlState where
  visited : List String
  discovered : List String
  visitLog : List (String × Nat)
deriving Repr

/-- The `for link in urls:` loop of `_crawl_url`: recurse into same-domain
links, checking the global URL cap after every link. -/
def crawlLinksLoop (maxUrls : Nat) (recurse : String → CrawlState → CrawlState)
    (base : String) : List String → CrawlState → CrawlState
  | [], st => st
  | l :: ls, st =>
    let st1 := if isSameDomain base l then recurse l st else st
    if maxUrls ≤ st1.discovered.length then st1
    else crawlLinksLoop maxUrls recurse base ls st1

/-- `DeepURLCrawler._crawl_url`.  The fuel argument only reifies the
termination already guaranteed by the `depth > max_depth` guard: the
function is called with fuel `maxDepth + 1 - depth`, so fuel reaches 0
only at `depth = maxDepth + 1`, where the guard returns unchanged too. -/
def crawlUrl (web : Web) (maxDepth maxUrls : Nat) :
    Nat → String → Nat → CrawlState → CrawlState
  | 0, _, _, st => st
  | fuel + 1, url, depth, st =>
    if maxDepth < depth then st
    else if maxUrls ≤ st.discovered.length then st
    else if url ∈ st.visited then st
    else
      let st1 : CrawlState :=
        { st with visited := url :: st.visited,
                  visitLog := st.visitLog ++ [(url, depth)] }
      match webLookup web url with
      | none => st1
      | some page =>
        let urls := crawlerExtractUrls page url
        let st2 : CrawlState :=
          { st1 with discovered := urls.foldl (fun d u => insertNew u d) st1.discovered }
        crawlLinksLoop maxUrls
          (fun l s => crawlUrl web maxDepth maxUrls fuel l (depth + 1) s)
          url urls st2

/-- The `for url in start_urls:` loop of `DeepURLCrawler.crawl`. -/
def crawlSeeds (web : Web) (maxDepth maxUrls : Nat) :
    List String → CrawlState → CrawlState
  | [], st => st
  | u :: us, st =>
    let st1 := crawlUrl web maxDepth maxUrls (maxDepth + 1) u 0 st
    if maxUrls ≤ st1.discovered.length then st1
    else crawlSeeds web maxDepth maxUrls us st1

/-- `DeepURLCrawler.crawl` starting from fresh `visited`/`discovered`
sets. -/
def crawl (web : Web) (maxDepth maxUrls : Nat) (startUrls : List String) :
    CrawlState :=
  crawlSeeds web maxDepth maxUrls startUrls ⟨[], [], []⟩

/-! ## `URLExtractor` (src/discovery/crawler/url_extractor.py) -/

/-- `URLExtractor.normalize_url`: resolve against the base with `urljoin`,
then rebuild with `urlunparse` keeping params and dropping the
fragment. -/
def urlExtractorNormalize (u baseUrl : String) : String :=
  let abs := pyUrljoinL baseUrl.toList u.toList
  let p := pyUrlparse abs []
  if bracketMismatch p.netloc then u
  else (pyUrlunparse p.scheme p.netloc p.path p.params p.query []).asString

/-- `URLExtractor.extract_from_page`: the five extraction sources (anchor
hrefs, form actions, onclick URLs, meta-refresh target, iframe sources),
all normalized against the page URL. -/
def urlExtractorExtract (page : Page) (baseUrl : String) : List String :=
  let urls :=
    dedupKeepFirst
      (page.anchors ++ page.formActions ++ page.onclickUrls ++
       (match page.metaRefresh with | some m => [m] | none => []) ++
       page.iframeSrcs)
  dedupKeepFirst
    ((urls.filter (fun u => u ≠ "")).map (fun u => urlExtractorNormalize u baseUrl))

/-! ## Data model (src/discovery/models) -/

/-- `DiscoveryStage` enum. -/
inductive DiscoveryStage where
  | initialized
  | passiveDiscovery
  | activeDiscovery
  | deepDiscovery
  | enrichment
  | completed
  | failed
deriving DecidableEq, Repr

/-- `Severity` enum (src/discovery/models/finding.py). -/
inductive Severity where
  | critical
  | high
  | medium
  | low
  | info
deriving DecidableEq, Repr

/-- `Subdomain` (the fields the orchestrator reads and writes): name,
liveness status and the open ports found by the port stage. -/
structure Subdomain where
  name : String
  ips : List String
  status : String
  openPorts : List Nat
deriving DecidableEq, Repr

/-- `DomainInfo`: subdomain list plus the cached counters. -/
structure DomainInfo where
  rootDomain : String
  subdomains : List Subdomain
  totalSubdomains : Nat
  liveSubdomains : Nat
deriving DecidableEq, Repr

/-- `Service` (the fields the orchestrator and enrichment read): URL,
`Server` header and detected technology names. -/
structure Service where
  url : String
  server : Option String
  technologies : List String
deriving DecidableEq, Repr

/-- The `findings_by_severity` histogram with its five fixed buckets. -/
structure SeverityCounts where
  critical : Nat
  high : Nat
  medium : Nat
  low : Nat
  info : Nat
deriving DecidableEq, Repr

/-- `Statistics` (src/discovery/models/discovery.py).  The completeness
score, a Python float built from the literals 0.3/0.2/1.0, is modelled
with exact rationals. -/
structure Statistics where
  totalSubdomains : Nat
  liveServices : Nat
  technologiesDetected : Nat
  endpointsDiscovered : Nat
  findingsBySeverity : SeverityCounts
  coverageCompleteness : ℚ
deriving DecidableEq, Repr

/-- The default `Statistics` value. -/
def Statistics.default : Statistics := ⟨0, 0, 0, 0, ⟨0, 0, 0, 0, 0⟩, 0⟩

/-- `DiscoveryResult` with its metadata flattened in (`metadata.status`
and `metadata.error` become `status` and `error`); the timeline keeps
(stage, message) pairs, and `warnings` records `logger.warning` calls. -/
structure DiscoveryResult where
  status : DiscoveryStage
  error : Option String
  domains : Option DomainInfo
  services : List Service
  technologies : List String
  endpoints : List String
  findings : List Severity
  infrastructure : Option (List (String × String))
  statistics : Statistics
  timeline : List (DiscoveryStage × String)
  warnings : List String
deriving Repr

/-- Bump one severity bucket (`severity_counts[finding.severity.value] += 1`). -/
def bumpSeverity (c : SeverityCounts) : Severity → SeverityCounts
  | .critical => { c with critical := c.critical + 1 }
  | .high => { c with high := c.high + 1 }
  | .medium => { c with medium := c.medium + 1 }
  | .low => { c with low := c.low + 1 }
  | .info => { c with info := c.info + 1 }

/-- `DiscoveryResult.update_statistics`
(src/discovery/models/discovery.py lines 112-138). -/
def updateStatistics (r : DiscoveryResult) : DiscoveryResult :=
  let s0 := r.statistics
  let s1 :=
    match r.domains with
    | some d => { s0 with totalSubdomains := d.subdomains.length }
    | none => s0
  let s2 := { s1 with
    liveServices := r.services.length,
    technologiesDetected := r.technologies.length,
    endpointsDiscovered := r.endpoints.length }
  let counts := r.findings.foldl bumpSeverity ⟨0, 0, 0, 0, 0⟩
  let s3 := { s2 with findingsBySeverity := counts }
  let score : ℚ :=
    (0 + (match r.domains with
          | some d => if 0 < d.totalSubdomains then (3 : ℚ)/10 else 0
          | none => 0))
    + (if 0 < s3.liveServices then (3 : ℚ)/10 else 0)
    + (if 10 < s3.endpointsDiscovered then (2 : ℚ)/10 else 0)
    + (if 0 < s3.technologiesDetected then (2 : ℚ)/10 else 0)
  { r with statistics := { s3 with coverageCompleteness := min score 1 } }

/-! ## The orchestrator (src/discovery/core.py)

Each stage module is abstracted by its outcome: the value it returns to
the orchestrator, or the message of the exception it raises
(`Except.error`).  The orchestrator code — gating, status/timeline
updates, result merging, and the `try/except` policy — is translated
below. -/

/-- Outcomes of the six stage modules for one run.  The port stage's
contribution is the per-subdomain list of open ports naabu found. -/
structure StageBehaviors where
  passive : Except String DomainInfo
  port : Except String (List (String × List Nat))
  active : Except String (List Service)
  deep : Except String (List String)
  enrich : Except String (List (String × String))
  vuln : Except String (List Severity)

/-- Append a timeline event (`DiscoveryResult.add_timeline_event`). -/
def addEvent (r : DiscoveryResult) (st : DiscoveryStage) (msg : String) :
    DiscoveryResult :=
  { r with timeline := r.timeline ++ [(st, msg)] }

/-- Record a `logger.warning` call. -/
def addWarning (r : DiscoveryResult) (msg : String) : DiscoveryResult :=
  { r with warnings := r.warnings ++ [msg] }

/-- `DiscoveryEngine._run_passive_discovery`: on failure the exception
is re-raised (the error value carries the state as mutated so far). -/
def runPassiveStage (b : StageBehaviors) (r : DiscoveryResult) :
    Except (String × DiscoveryResult) DiscoveryResult :=
  let r := addEvent { r with status := .passiveDiscovery }
    .passiveDiscovery "Starting passive reconnaissance"
  match b.passive with
  | .ok d =>
    .ok (addEvent { r with domains := some d }
      .passiveDiscovery "Passive discovery completed")
  | .error e =>
    .error (e, addEvent r .passiveDiscovery ("Passive discovery failed: " ++ e))

/-- `DiscoveryEngine._run_port_discovery`: skips (with a warning) when no
subdomains were found; exceptions are swallowed (`# Don't raise`). -/
def runPortStage (b : StageBehaviors) (r : DiscoveryResult) : DiscoveryResult :=
  let r := addEvent r .passiveDiscovery "Starting port scanning"
  match r.domains with
  | none =>
    addWarning r "No subdomains found in passive discovery, skipping port discovery"
  | some d =>
    if d.subdomains = [] then
      addWarning r "No subdomains found in passive discovery, skipping port discovery"
    else
      match b.port with
      | .ok ports =>
        let d' := { d with subdomains := d.subdomains.map (fun s =>
          { s with openPorts :=
              match ports.find? (fun p => p.1 = s.name) with
              | some p => p.2
              | none => s.openPorts }) }
        addEvent { r with domains := some d' }
          .passiveDiscovery "Port discovery completed"
      | .error e =>
        addEvent r .passiveDiscovery ("Port discovery failed: " ++ e)

/-- Does `needle` occur at the start of `hay`? -/
def leadsList {α : Type _} [DecidableEq α] : List α → List α → Bool
  | [], _ => true
  | _ :: _, [] => false
  | x :: xs, y :: ys => if x = y then leadsList xs ys else false

/-- Python's substring operator `needle in hay` on character lists. -/
def occursIn {α : Type _} [DecidableEq α] (needle : List α) : List α → Bool
  | [] => leadsList needle []
  | y :: ys => leadsList needle (y :: ys) || occursIn needle ys

/-- The liveness update of `_run_active_discovery` (core.py lines
232-244): a subdomain is live exactly when its name occurs as a substring
of some probed service URL. -/
def subdomainIsLive (serviceUrls : List String) (name : String) : Bool :=
  serviceUrls.any (fun url => occursIn name.toList url.toList)

/-- `DiscoveryEngine._run_active_discovery`: skips (with a warning) when
no subdomains were found; on success stores the services, re-marks every
subdomain live/dead, recounts `live_subdomains` and collects the
technologies; exceptions re-raise. -/
def runActiveStage (b : StageBehaviors) (r : DiscoveryResult) :
    Except (String × DiscoveryResult) DiscoveryResult :=
  let r := addEvent { r with status := .activeDiscovery }
    .activeDiscovery "Starting active probing"
  match r.domains with
  | none =>
    .ok (addWarning r "No subdomains found in passive discovery, skipping active stage")
  | some d =>
    if d.subdomains = [] then
      .ok (addWarning r "No subdomains found in passive discovery, skipping active stage")
    else
      match b.active with
      | .ok services =>
        let serviceUrls := services.map (fun s => s.url)
        let subs := d.subdomains.map (fun s =>
          { s with status := if subdomainIsLive serviceUrls s.name then "live" else "dead" })
        let d' := { d with
          subdomains := subs
          liveSubdomains := (subs.filter (fun s => s.status = "live")).length }
        let techs := services.foldl (fun acc s => acc ++ s.technologies) []
        .ok (addEvent
          { r with services := services, domains := some d', technologies := techs }
          .activeDiscovery "Active discovery completed")
      | .error e =>
        .error (e, addEvent r .activeDiscovery ("Active discovery failed: " ++ e))

/-- `DiscoveryEngine._run_deep_discovery`: skips when there are no live
services; exceptions re-raise. -/
def runDeepStage (b : StageBehaviors) (r : DiscoveryResult) :
    Except (String × DiscoveryResult) DiscoveryResult :=
  let r := addEvent { r with status := .deepDiscovery }
    .deepDiscovery "Starting web crawling"
  if r.services = [] then
    .ok (addWarning r "No live services found in active discovery, skipping deep stage")
  else
    match b.deep with
    | .ok endpoints =>
      .ok (addEvent { r with endpoints := endpoints }
        .deepDiscovery "Deep discovery completed")
    | .error e =>
      .error (e, addEvent r .deepDiscovery ("Deep discovery failed: " ++ e))

/-- `DiscoveryEngine._run_enrichment`: no gating; exceptions are
swallowed (`# Don't raise`). -/
def runEnrichStage (b : StageBehaviors) (r : DiscoveryResult) : DiscoveryResult :=
  let r := addEvent { r with status := .enrichment }
    .enrichment "Starting infrastructure enrichment"
  match b.enrich with
  | .ok infra =>
    addEvent { r with infrastructure := some infra } .enrichment "Enrichment completed"
  | .error e =>
    addEvent r .enrichment ("Enrichment failed: " ++ e)

/-- `DiscoveryEngine._run_vulnerability_scan`: sets status `COMPLETED` on
entry, skips when there are no services; exceptions are swallowed. -/
def runVulnStage (b : StageBehaviors) (r : DiscoveryResult) : DiscoveryResult :=
  let r := addEvent { r with status := .completed }
    .completed "Starting vulnerability scanning"
  if r.services = [] then
    addWarning r "No live services found, skipping vulnerability scanning"
  else
    match b.vuln with
    | .ok findings =>
      addEvent { r with findings := findings }
        .completed "Vulnerability scanning completed"
    | .error e =>
      addEvent r .completed ("Vulnerability scanning failed: " ++ e)

/-- `DiscoveryEngine._finalize`: statistics refresh, status `COMPLETED`,
final timeline event (wall-clock duration is not modelled). -/
def finalizeRun (r : DiscoveryResult) : DiscoveryResult :=
  let r := updateStatistics r
  addEvent { r with status := .completed }
    .completed "Discovery completed successfully"

/-- The initial `DiscoveryResult` built in `discover`. -/
def initResult : DiscoveryResult :=
  { status := .initialized, error := none, domains := none, services := [],
    technologies := [], endpoints := [], findings := [], infrastructure := none,
    statistics := Statistics.default,
    timeline := [(.initialized, "Discovery initialized")], warnings := [] }

/-- `DiscoveryEngine.discover` (the stage sequencing of lines 74-109):
returns the final `DiscoveryResult` together with the exception the call
re-raises, if any.  The outer `except` sets status `FAILED` and captures
the error message before re-raising. -/
def discover (b : StageBehaviors) (skipVulnScan : Bool) :
    DiscoveryResult × Option String :=
  let pipeline : Except (String × DiscoveryResult) DiscoveryResult := do
    let r1 ← runPassiveStage b initResult
    let r2 := runPortStage b r1
    let r3 ← runActiveStage b r2
    let r4 ← runDeepStage b r3
    let r5 := runEnrichStage b r4
    let r6 :=
      if skipVulnScan then
        addEvent r5 .completed "Vulnerability scanning skipped by user configuration"
      else runVulnStage b r5
    pure (finalizeRun r6)
  match pipeline with
  | .ok r => (r, none)
  | .error (e, r) => ({ r with status := .failed, error := some e }, some e)

/-! ## Path-parameter extraction (src/discovery/stages/authenticated.py)

Each entry of `PATH_PARAM_PATTERNS` is a regex of the shape
`/(<body>)(?:/|$)` applied by `re.search` to `'/' + segment + '/'`, where
`segment` contains no `/`.  Since no body character class contains `/`,
such a search succeeds exactly when the whole segment matches `<body>`,
so each pattern is modelled by a full-segment matcher. -/

/-- ASCII digit. -/
def isDigitCh (c : Char) : Bool := '0' ≤ c && c ≤ '9'

/-- Lower-case hex digit (`[0-9a-f]`). -/
def isHexLower (c : Char) : Bool := isDigitCh c || ('a' ≤ c && c ≤ 'f')

/-- Slug character (`[a-z0-9\-_]`). -/
def isSlugChar (c : Char) : Bool :=
  ('a' ≤ c && c ≤ 'z') || isDigitCh c || c = '-' || c = '_'

/-- Email local-part character (`[a-z0-9._%+-]`). -/
def isLocalChar (c : Char) : Bool :=
  ('a' ≤ c && c ≤ 'z') || isDigitCh c || c = '.' || c = '_' || c = '%' ||
  c = '+' || c = '-'

/-- Email domain character (`[a-z0-9.-]`). -/
def isDomChar (c : Char) : Bool :=
  ('a' ≤ c && c ≤ 'z') || isDigitCh c || c = '.' || c = '-'

/-- Lower-case ASCII letter (`[a-z]`). -/
def isLowerAlpha (c : Char) : Bool := 'a' ≤ c && c ≤ 'z'

/-- `[0-9a-f]{8}-[0-9a-f]{4}-[0-9a-f]{4}-[0-9a-f]{4}-[0-9a-f]{12}`. -/
def uuidBody (s : List Char) : Bool :=
  match splitOnChar '-' s with
  | [g1, g2, g3, g4, g5] =>
    decide (g1.length = 8) && decide (g2.length = 4) && decide (g3.length = 4) &&
    decide (g4.length = 4) && decide (g5.length = 12) &&
    g1.all isHexLower && g2.all isHexLower && g3.all isHexLower &&
    g4.all isHexLower && g5.all isHexLower
  | _ => false

/-- `\d+`. -/
def idBody (s : List Char) : Bool := decide (s ≠ []) && s.all isDigitCh

/-- `[a-z0-9\-_]+`. -/
def slugBody (s : List Char) : Bool := decide (s ≠ []) && s.all isSlugChar

/-- `[a-z0-9.-]+\.[a-z]{2,}` (full match, any split at a dot). -/
def emailDomainBody (dom : List Char) : Bool :=
  (List.range dom.length).any (fun i =>
    let x := dom.take i
    match dom.drop i with
    | '.' :: t =>
      decide (x ≠ []) && x.all isDomChar && decide (2 ≤ t.length) &&
      t.all isLowerAlpha
    | _ => false)

/-- `[a-z0-9._%+-]+@[a-z0-9.-]+\.[a-z]{2,}`. -/
def emailBody (s : List Char) : Bool :=
  match splitOnFirst '@' s with
  | some (localPart, dom) =>
    decide (localPart ≠ []) && localPart.all isLocalChar &&
    !dom.contains '@' && emailDomainBody dom
  | none => false

/-- `[a-f0-9]{32,}`. -/
def hashBody (s : List Char) : Bool := decide (32 ≤ s.length) && s.all isHexLower

/-- `\d{4}-\d{2}-\d{2}`. -/
def dateBody (s : List Char) : Bool :=
  match s with
  | [a, b, c, d, '-', e, f, '-', g, h] =>
    [a, b, c, d, e, f, g, h].all isDigitCh
  | _ => false

/-- `AuthenticatedDiscovery.PATH_PARAM_PATTERNS`, in source order:
uuid, id, slug, email, hash, date (lines 41-54); each entry carries the
matcher for its body and the literal regex text stored in the
`pattern` field. -/
def pathParamPatterns : List (String × (List Char → Bool) × String) :=
  [("uuid", uuidBody,
    "/([0-9a-f]\x7b8\x7d-[0-9a-f]\x7b4\x7d-[0-9a-f]\x7b4\x7d-[0-9a-f]\x7b4\x7d-[0-9a-f]\x7b12\x7d)(?:/|$)"),
   ("id", idBody, "/(\\d+)(?:/|$)"),
   ("slug", slugBody, "/([a-z0-9\\-_]+)(?:/|$)"),
   ("email", emailBody, "/([a-z0-9._%+-]+@[a-z0-9.-]+\\.[a-z]\x7b2,\x7d)(?:/|$)"),
   ("hash", hashBody, "/([a-f0-9]\x7b32,\x7d)(?:/|$)"),
   ("date", dateBody, "/(\\d\x7b4\x7d-\\d\x7b2\x7d-\\d\x7b2\x7d)(?:/|$)")]

/-- The pattern order the claim asserts: uuid, id, hash, date, email,
slug.  This definition follows the claim's words, not the source; it is
the comparison point for the precedence-order statement. -/
def claimOrderPatterns : List (String × (List Char → Bool) × String) :=
  [("uuid", uuidBody, ""), ("id", idBody, ""), ("hash", hashBody, ""),
   ("date", dateBody, ""), ("email", emailBody, ""), ("slug", slugBody, "")]

/-- First matching pattern for one segment (`break` after the first hit). -/
def firstPatternIn (pats : List (String × (List Char → Bool) × String))
    (seg : List Char) : Option (String × String) :=
  (pats.find? (fun p => p.2.1 seg)).map (fun p => (p.1, p.2.2))

/-- `PathParameter` model. -/
structure PathParameter where
  name : String
  pattern : String
  exampleValues : List String
  position : Nat
deriving DecidableEq, Repr

/-- Insert an observed value under key `(position, name)`: create the
entry on first sight, append the value if it is not already recorded. -/
def addParamValue (m : List ((Nat × String) × PathParameter)) (i : Nat)
    (nm pat v : String) : List ((Nat × String) × PathParameter) :=
  let key := (i, nm)
  match m.find? (fun e => e.1 = key) with
  | some _ =>
    m.map (fun e =>
      if e.1 = key then
        (e.1, { e.2 with exampleValues :=
          if v ∈ e.2.exampleValues then e.2.exampleValues
          else e.2.exampleValues ++ [v] })
      else e)
  | none => m ++ [(key, ⟨nm, pat, [v], i⟩)]

/-- `segments = [s for s in path.split('/') if s]` on
`urlparse(endpoint.url).path`. -/
def pathSegments (url : String) : List (List Char) :=
  (splitOnChar '/' (pyUrlparse url.toList []).path).filter (fun s => s ≠ [])

/-- One endpoint's contribution to the parameter dictionary. -/
def extractParamsOfUrl (pats : List (String × (List Char → Bool) × String))
    (m : List ((Nat × String) × PathParameter)) (url : String) :
    List ((Nat × String) × PathParameter) :=
  (pathSegments url).enum.foldl
    (fun m p =>
      match firstPatternIn pats p.2 with
      | some (nm, pat) => addParamValue m p.1 nm pat p.2.asString
      | none => m) m

/-- `AuthenticatedDiscovery._extract_path_parameters` (lines 240-282),
parameterized by the pattern table. -/
def extractPathParametersWith
    (pats : List (String × (List Char → Bool) × String))
    (urls : List String) : List PathParameter :=
  (urls.foldl (extractParamsOfUrl pats) []).map (fun e => e.2)

/-- The extractor as implemented (source pattern order). -/
def extractPathParameters (urls : List String) : List PathParameter :=
  extractPathParametersWith pathParamPatterns urls

/-- The extractor under the claim's pattern order (spec-side reference
definition). -/
def claimOrderExtractPathParameters (urls : List String) : List PathParameter :=
  extractPathParametersWith claimOrderPatterns urls

/-! ## CDN detection (src/discovery/stages/enrichment.py) -/

/-- `EnrichmentStage.CDN_PATTERNS` (lines 70-91).  Every pattern is a
regex-metacharacter-free literal, so `re.search` is a substring test. -/
def cdnPatterns : List (String × List String) :=
  [("Cloudflare", ["cloudflare", "cf-ray", "__cfduid"]),
   ("Akamai", ["akamai", "akamaihd"]),
   ("Fastly", ["fastly", "x-fastly"]),
   ("CloudFront", ["cloudfront", "x-amz-cf"]),
   ("MaxCDN", ["maxcdn"])]

/-- `searchable = f"{server.lower()} {' '.join(tech_names)}"` with
`tech_names` the lower-cased technology names.  (`re.IGNORECASE` is
redundant: the text is lower-cased and the patterns are lower-case.) -/
def searchableOf (s : Service) : List Char :=
  lowerStr (s.server.getD "").toList ++
    ' ' :: joinWithChar ' ' (s.technologies.map (fun t => lowerStr t.toList))

/-- Does some pattern of one provider occur in the service's searchable
text?  (the inner pattern loop with its `break`). -/
def serviceMatchesCdn (pats : List String) (s : Service) : Bool :=
  pats.any (fun p => occursIn p.toList (searchableOf s))

/-- Add a service URL to one provider's set, creating it when absent. -/
def addCdnUrl (m : List (String × List String)) (name url : String) :
    List (String × List String) :=
  match m.find? (fun e => e.1 = name) with
  | some _ => m.map (fun e => if e.1 = name then (e.1, insertNew url e.2) else e)
  | none => m ++ [(name, [url])]

/-- `EnrichmentStage._detect_cdn_providers` (lines 192-222): for every
service, every provider whose pattern list matches records the URL (the
`break` leaves only the provider's own remaining patterns). -/
def detectCdnProviders (services : List Service) : List (String × List String) :=
  services.foldl
    (fun m s =>
      cdnPatterns.foldl
        (fun m p => if serviceMatchesCdn p.2 s then addCdnUrl m p.1 s.url else m)
        m)
    []

/-! ## Reference definitions and concrete scenario inputs -/

/-- The stage-specific propagation policy as the specification states it:
the first exception of a hard-fail stage (Passive, Active, Deep) that
actually runs propagates; Port, Enrichment and Vulnerability exceptions
never do.  This follows the spec's words and is the comparison point for
`discover`. -/
def hardFirstError (b : StageBehaviors) : Option String :=
  match b.passive with
  | .error e => some e
  | .ok d =>
    if d.subdomains = [] then none
    else
      match b.active with
      | .error e => some e
      | .ok svcs =>
        if svcs = [] then none
        else
          match b.deep with
          | .error e => some e
          | .ok _ => none

/-- C5 scenario: page A links to B (same origin) and C (different
origin); page B is empty. -/
def pageA : Page := ⟨["http://a.com/b", "http://c.com/x"], [], [], none, []⟩

/-- C5 scenario: the empty page at B. -/
def pageB : Page := ⟨[], [], [], none, []⟩

/-- C5 scenario web. -/
def webC5 : Web := [("http://a.com/", pageA), ("http://a.com/b", pageB)]

/-- C2 counterexample web: two seed pages with no links at all. -/
def webC2 : Web := [("http://a.com/", pageB), ("http://b.com/", pageB)]

/-- C4 counterexample page: links only in a meta-refresh tag and an
iframe source. -/
def iframePage : Page := ⟨[], [], [], some "http://h/next", ["http://h/frame"]⟩

/-- C9 counterexample: a service whose `Server` header carries the tokens
of two different CDN providers. -/
def cdnService : Service := ⟨"https://site", some "cloudflare akamai", []⟩

/-- C7 counterexample 1: no domain intelligence, but a stale non-zero
`total_subdomains` statistic. -/
def c7state1 : DiscoveryResult :=
  { initResult with statistics := { Statistics.default with totalSubdomains := 5 } }

/-- C7 counterexample 2: one subdomain in the collection while the
`DomainInfo.total_subdomains` field is 0. -/
def c7state2 : DiscoveryResult :=
  { initResult with domains := some ⟨"r", [⟨"a.r", [], "unknown", []⟩], 0, 0⟩ }

/-- Crawl-state invariant for the visit-bound analysis: set-like
`visited`/`discovered`, every visited URL is a seed or was discovered
first, the non-seed visits stay strictly under the `maxUrls` cap, and
the navigation log matches the visited set with only in-bound depths. -/
def CrawlInv (seeds : List String) (maxDepth maxUrls : Nat)
    (st : CrawlState) : Prop :=
  st.visited.Nodup ∧
  st.discovered.Nodup ∧
  (∀ u ∈ st.visited, u ∈ seeds ∨ u ∈ st.discovered) ∧
  (st.visited.filter (fun u => decide (u ∉ seeds))).length ≤ maxUrls - 1 ∧
  st.visitLog.length = st.visited.length ∧
  (∀ e ∈ st.visitLog, e.2 ≤ maxDepth)

/-- Witness behaviors for the failure-policy theorem: one subdomain, the
port and enrichment and vulnerability stage modules all throwing, the
hard-fail stages succeeding. -/
def bC1 : StageBehaviors :=
  { passive := .ok ⟨"r", [⟨"a.r", [], "unknown", []⟩], 1, 0⟩,
    port := .error "port boom",
    active := .ok [⟨"https://a.r/", none, []⟩],
    deep := .ok [],
    enrich := .error "enrich boom",
    vuln := .error "vuln boom" }

/-- Witness behaviors for the zero-subdomain gating theorem. -/
def bC3 : StageBehaviors :=
  { passive := .ok ⟨"r", [], 0, 0⟩, port := .ok [], active := .ok [],
    deep := .ok [], enrich := .ok [], vuln := .ok [] }

/-- Witness behaviors for the liveness-update theorem: two subdomains,
one of which occurs in the probed service URL. -/
def bC10 : StageBehaviors :=
  { passive := .ok ⟨"r", [⟨"a.r", [], "unknown", []⟩, ⟨"b.r", [], "unknown", []⟩], 2, 0⟩,
    port := .ok [],
    active := .ok [⟨"https://a.r/", none, []⟩],
    deep := .ok [], enrich := .ok [], vuln := .ok [] }

/-- Invariant of the path-parameter dictionary: distinct keys, each entry
consistent with its `(position, name)` key, duplicate-free example
values, and only the four reachable pattern names. -/
def ParamInv (m : List ((Nat × String) × PathParameter)) : Prop :=
  (m.map Prod.fst).Nodup ∧
  ∀ e ∈ m, e.2.name = e.1.2 ∧ e.2.position = e.1.1 ∧
    e.2.exampleValues.Nodup ∧
    e.2.name ∈ (["uuid", "id", "slug", "email"] : List String)

/-! # Theorems -/

/-! ## Shared list lemmas -/

theorem mem_insertNew {α : Type _} [DecidableEq α] {x y : α} {l : List α} :
    x ∈ insertNew y l ↔ x = y ∨ x ∈ l := by
  unfold insertNew
  split
  · constructor
    · exact Or.inr
    · rintro (rfl | h) <;> [assumption; assumption]
  · simp [or_comm]

theorem nodup_insertNew {α : Type _} [DecidableEq α] {y : α} {l : List α}
    (h : l.Nodup) : (insertNew y l).Nodup := by
  unfold insertNew
  split
  · exact h
  · simpa [List.nodup_append] using ⟨h, by assumption⟩

theorem subset_insertNew {α : Type _} [DecidableEq α] (y : α) (l : List α) :
    l ⊆ insertNew y l := by
  intro x hx
  exact mem_insertNew.mpr (Or.inr hx)

theorem mem_foldl_insertNew {α : Type _} [DecidableEq α] (l acc : List α)
    (x : α) :
    x ∈ l.foldl (fun a y => insertNew y a) acc ↔ x ∈ acc ∨ x ∈ l := by
  induction l generalizing acc with
  | nil => simp
  | cons y ys ih =>
    simp only [List.foldl_cons, ih, mem_insertNew, List.mem_cons]
    tauto

theorem nodup_foldl_insertNew {α : Type _} [DecidableEq α] (l : List α)
    {acc : List α} (h : acc.Nodup) :
    (l.foldl (fun a y => insertNew y a) acc).Nodup := by
  induction l generalizing acc with
  | nil => exact h
  | cons y ys ih => exact ih (nodup_insertNew h)

theorem subset_foldl_insertNew {α : Type _} [DecidableEq α] (l acc : List α) :
    acc ⊆ l.foldl (fun a y => insertNew y a) acc := by
  intro x hx
  exact (mem_foldl_insertNew l acc x).mpr (Or.inl hx)

theorem mem_dedupKeepFirst {α : Type _} [DecidableEq α] {x : α} {l : List α} :
    x ∈ dedupKeepFirst l ↔ x ∈ l := by
  unfold dedupKeepFirst
  rw [mem_foldl_insertNew]
  simp

theorem nodup_dedupKeepFirst {α : Type _} [DecidableEq α] (l : List α) :
    (dedupKeepFirst l).Nodup :=
  nodup_foldl_insertNew l List.nodup_nil

/-! ## C4 — the crawler's link extraction sources -/

/-- C4, counterexample: on a page whose only links sit in a meta-refresh
tag and an iframe source, `DeepURLCrawler._extract_urls` extracts
nothing, while the five-source extraction
(`URLExtractor.extract_from_page`) finds both links — so the crawler does
not extract from five sources. -/
theorem c4_counterexample :
    crawlerExtractUrls iframePage "http://h/" = [] ∧
    urlExtractorExtract iframePage "http://h/" = ["http://h/next", "http://h/frame"] ∧
    crawlerExtractUrls iframePage "http://h/" ≠ urlExtractorExtract iframePage "http://h/" := by
  decide

/-- C4, amended: for every page the crawler renders, its extraction draws
on exactly three sources — anchor hrefs and non-empty form actions
(resolved against the page URL with `urljoin`) and onclick-embedded URLs
taken raw — normalized and unioned; meta-refresh targets and iframe
sources are not extracted by the crawler. -/
theorem c4_amended (page : Page) (base u : String) :
    u ∈ crawlerExtractUrls page base ↔
      ∃ raw, raw ≠ "" ∧ u = normalizeUrl raw ∧
        ((∃ a ∈ page.anchors, raw = pyUrljoin base a) ∨
         (∃ f ∈ page.formActions, f ≠ "" ∧ raw = pyUrljoin base f) ∨
         raw ∈ page.onclickUrls) := by
  unfold crawlerExtractUrls
  simp only [mem_dedupKeepFirst, List.mem_map, List.mem_filter,
    List.mem_append, decide_eq_true_eq]
  constructor
  · rintro ⟨raw, ⟨hsrc, hne⟩, rfl⟩
    refine ⟨raw, hne, rfl, ?_⟩
    rcases hsrc with (⟨a, ha, rfl⟩ | ⟨f, ⟨hf, hfne⟩, rfl⟩) | ho
    · exact Or.inl ⟨a, ha, rfl⟩
    · exact Or.inr (Or.inl ⟨f, hf, hfne, rfl⟩)
    · exact Or.inr (Or.inr ho)
  · rintro ⟨raw, hne, rfl, (⟨a, ha, rfl⟩ | ⟨f, hf, hfne, rfl⟩ | ho)⟩
    · exact ⟨_, ⟨Or.inl (Or.inl ⟨a, ha, rfl⟩), hne⟩, rfl⟩
    · exact ⟨_, ⟨Or.inl (Or.inr ⟨f, ⟨hf, hfne⟩, rfl⟩), hne⟩, rfl⟩
    · exact ⟨_, ⟨Or.inr ho, hne⟩, rfl⟩

/-! ## C5 — the single-seed same-origin scenario -/

/-- C5, counterexample: with seed A (`http://a.com/`), `maxDepth = 1`,
`maxURLs = 100`, page A linking to B (same origin) and C (different
origin), the cross-origin link C *is* in the discovered set and the seed
A is *not* — the claimed discovered set `{A, B}` is wrong on both
counts. -/
theorem c5_counterexample :
    "http://c.com/x" ∈ (crawl webC5 1 100 ["http://a.com/"]).discovered ∧
    normalizeUrl "http://c.com/x" = "http://c.com/x" ∧
    isSameDomain "http://a.com/" "http://c.com/x" = false ∧
    "http://a.com/" ∉ (crawl webC5 1 100 ["http://a.com/"]).discovered := by
  decide

/-- C5, amended: in the scenario the discovered set is exactly the
normalized forms of B and C — the same-origin policy gates only
recursion (B is visited, C is not), while every extracted link, of
either origin, enters the discovered set; the seed A enters it only if
some page links to it. -/
theorem c5_amended :
    (crawl webC5 1 100 ["http://a.com/"]).discovered =
      ["http://a.com/b", "http://c.com/x"] ∧
    (crawl webC5 1 100 ["http://a.com/"]).visited =
      ["http://a.com/b", "http://a.com/"] ∧
    isSameDomain "http://a.com/" "http://a.com/b" = true ∧
    isSameDomain "http://a.com/" "http://c.com/x" = false ∧
    normalizeUrl "http://a.com/b" = "http://a.com/b" ∧
    normalizeUrl "http://c.com/x" = "http://c.com/x" := by
  decide

/-! ## C7 — the statistics aggregator -/

/-- C7, counterexample: after `update_statistics`, (i) on a result with
no domain intelligence but a stale `total_subdomains = 5` statistic, the
statistic stays 5 while the backing collection holds 0 subdomains; (ii)
on a result whose `DomainInfo` holds one subdomain but whose
`total_subdomains` *field* is 0, the statistic records 1 subdomain found
yet `coverage_completeness` is 0, not the claimed 0.3. -/
theorem c7_counterexample :
    ((updateStatistics c7state1).statistics.totalSubdomains = 5 ∧
      c7state1.domains = none ∧
      (updateStatistics c7state1).statistics.totalSubdomains ≠ 0) ∧
    ((updateStatistics c7state2).statistics.totalSubdomains = 1 ∧
      (updateStatistics c7state2).statistics.coverageCompleteness = 0 ∧
      (updateStatistics c7state2).statistics.coverageCompleteness ≠ 3/10) := by
  constructor
  · exact ⟨rfl, rfl, by decide⟩
  · refine ⟨rfl, by norm_num [updateStatistics, c7state2, initResult, Statistics.default], ?_⟩
    norm_num [updateStatistics, c7state2, initResult, Statistics.default]

/-- The severity histogram fold counts each bucket. -/
theorem foldl_bumpSeverity (l : List Severity) (c : SeverityCounts) :
    l.foldl bumpSeverity c =
      ⟨c.critical + l.count .critical, c.high + l.count .high,
       c.medium + l.count .medium, c.low + l.count .low,
       c.info + l.count .info⟩ := by
  induction l generalizing c with
  | nil => simp
  | cons x xs ih =>
    cases x <;>
      simp [bumpSeverity, ih, List.count_cons] <;>
      omega

/-- C7, amended: after `update_statistics`, the live-service, technology
and endpoint counts equal the sizes of their collections and the
histogram counts each severity; `total_subdomains` is refreshed only
when domain intelligence is present (it keeps its old value otherwise);
and the completeness score sums 0.3/0.3/0.2/0.2 for the four checks —
the subdomain check reading the stored `DomainInfo.total_subdomains`
field, not the recomputed count — capped at 1.0. -/
theorem c7_amended (r : DiscoveryResult) :
    ((updateStatistics r).statistics.totalSubdomains =
      match r.domains with
      | some d => d.subdomains.length
      | none => r.statistics.totalSubdomains) ∧
    (updateStatistics r).statistics.liveServices = r.services.length ∧
    (updateStatistics r).statistics.technologiesDetected = r.technologies.length ∧
    (updateStatistics r).statistics.endpointsDiscovered = r.endpoints.length ∧
    (updateStatistics r).statistics.findingsBySeverity =
      ⟨r.findings.count .critical, r.findings.count .high,
       r.findings.count .medium, r.findings.count .low,
       r.findings.count .info⟩ ∧
    (updateStatistics r).statistics.coverageCompleteness =
      min ((if 0 < ((r.domains.map DomainInfo.totalSubdomains).getD 0) then (3 : ℚ)/10 else 0)
        + (if 0 < r.services.length then (3 : ℚ)/10 else 0)
        + (if 10 < r.endpoints.length then (2 : ℚ)/10 else 0)
        + (if 0 < r.technologies.length then (2 : ℚ)/10 else 0)) 1 ∧
    (updateStatistics r).statistics.coverageCompleteness ≤ 1 := by
  unfold updateStatistics
  cases hd : r.domains with
  | none =>
    simp [foldl_bumpSeverity, hd]
  | some d =>
    simp [foldl_bumpSeverity, hd]

/-! ## C9 — CDN attribution -/

/-- C9, counterexample: a service whose searchable text carries both
`cloudflare` and `akamai` is recorded under *both* providers — the first
matching provider does not stop the provider loop, so a service is not
attributed to at most one CDN. -/
theorem c9_counterexample :
    detectCdnProviders [cdnService] =
      [("Cloudflare", ["https://site"]), ("Akamai", ["https://site"])] ∧
    ("Cloudflare", ["https://site"]) ∈ detectCdnProviders [cdnService] ∧
    ("Akamai", ["https://site"]) ∈ detectCdnProviders [cdnService] := by
  decide

theorem mem_addCdnUrl (m : List (String × List String)) (nm url nm' u : String) :
    (∃ urls, (nm', urls) ∈ addCdnUrl m nm url ∧ u ∈ urls) ↔
      (∃ urls, (nm', urls) ∈ m ∧ u ∈ urls) ∨ (nm' = nm ∧ u = url) := by
  unfold addCdnUrl
  cases hf : m.find? (fun e => e.1 = nm) with
  | none =>
    simp only [List.mem_append, List.mem_singleton]
    constructor
    · rintro ⟨urls, (hm | heq), hu⟩
      · exact Or.inl ⟨urls, hm, hu⟩
      · have h1 : nm' = nm := by rw [Prod.mk.injEq] at heq; exact heq.1
        have h2 : urls = [url] := by rw [Prod.mk.injEq] at heq; exact heq.2
        rcases List.mem_singleton.mp (h2 ▸ hu) with rfl
        exact Or.inr ⟨h1, rfl⟩
    · rintro (⟨urls, hm, hu⟩ | ⟨rfl, rfl⟩)
      · exact ⟨urls, Or.inl hm, hu⟩
      · exact ⟨[u], Or.inr rfl, List.mem_singleton.mpr rfl⟩
  | some e0 =>
    have he0 : e0 ∈ m ∧ e0.1 = nm := by
      refine ⟨List.mem_of_find?_eq_some hf, ?_⟩
      have := List.find?_some hf
      simpa using this
    simp only [List.mem_map]
    constructor
    · rintro ⟨urls, ⟨e, he, heq⟩, hu⟩
      by_cases hcase : e.1 = nm
      · rw [if_pos hcase] at heq
        have h1 : e.1 = nm' := by rw [Prod.mk.injEq] at heq; exact heq.1
        have h2 : insertNew url e.2 = urls := by
          rw [Prod.mk.injEq] at heq; exact heq.2
        rcases mem_insertNew.mp (h2.symm ▸ hu) with rfl | hu2
        · exact Or.inr ⟨h1 ▸ hcase, rfl⟩
        · exact Or.inl ⟨e.2, by rw [← h1, Prod.mk.eta]; exact he, hu2⟩
      · rw [if_neg hcase] at heq
        exact Or.inl ⟨urls, heq ▸ he, hu⟩
    · rintro (⟨urls, hm, hu⟩ | ⟨rfl, rfl⟩)
      · by_cases hcase : nm' = nm
        · refine ⟨insertNew url urls, ⟨(nm', urls), hm, by simp [hcase]⟩, ?_⟩
          exact mem_insertNew.mpr (Or.inr hu)
        · exact ⟨urls, ⟨(nm', urls), hm, by simp [hcase]⟩, hu⟩
      · refine ⟨insertNew u e0.2, ⟨e0, he0.1, by simp [he0.2]⟩, ?_⟩
        exact mem_insertNew.mpr (Or.inl rfl)

theorem keysNodup_addCdnUrl {m : List (String × List String)} (nm url : String)
    (h : (m.map Prod.fst).Nodup) : ((addCdnUrl m nm url).map Prod.fst).Nodup := by
  unfold addCdnUrl
  cases hf : m.find? (fun e => e.1 = nm) with
  | none =>
    have hnm : nm ∉ m.map Prod.fst := by
      intro hmem
      obtain ⟨e, he, hfst⟩ := List.mem_map.mp hmem
      have := List.find?_eq_none.mp hf e he
      simp [hfst] at this
    have happ : (m.map Prod.fst ++ [nm]).Nodup := by
      rw [List.nodup_append]
      refine ⟨h, List.nodup_singleton _, ?_⟩
      intro a ha hb
      exact hnm (List.mem_singleton.mp hb ▸ ha)
    simpa using happ
  | some e0 =>
    have : (m.map (fun e => if e.1 = nm then (e.1, insertNew url e.2) else e)).map
        Prod.fst = m.map Prod.fst := by
      rw [List.map_map]
      refine List.map_congr_left (fun e _ => ?_)
      by_cases hc : e.1 = nm <;> simp [hc]
    rw [this]
    exact h

theorem urlsNodup_addCdnUrl {m : List (String × List String)} (nm url : String)
    (h : ∀ e ∈ m, e.2.Nodup) : ∀ e ∈ addCdnUrl m nm url, e.2.Nodup := by
  unfold addCdnUrl
  cases hf : m.find? (fun e => e.1 = nm) with
  | none =>
    intro e he
    rcases List.mem_append.mp he with hm | hs
    · exact h e hm
    · rcases List.mem_singleton.mp hs with rfl
      exact List.nodup_singleton url
  | some e0 =>
    intro e he
    obtain ⟨e', he', heq⟩ := List.mem_map.mp he
    by_cases hc : e'.1 = nm
    · rw [if_pos hc] at heq
      rcases heq.symm with rfl
      exact nodup_insertNew (h e' he')
    · rw [if_neg hc] at heq
      exact heq ▸ h e' he'

/-- One service against a pattern-table suffix: effect of the provider
loop on the accumulated mapping. -/
theorem cdnService_fold (s : Service) (ps : List (String × List String))
    (m : List (String × List String)) (nm u : String) :
    ((∃ urls,
        (nm, urls) ∈ ps.foldl
          (fun m p => if serviceMatchesCdn p.2 s then addCdnUrl m p.1 s.url else m) m ∧
        u ∈ urls) ↔
      (∃ urls, (nm, urls) ∈ m ∧ u ∈ urls) ∨
        (u = s.url ∧ ∃ pats, (nm, pats) ∈ ps ∧ serviceMatchesCdn pats s = true)) ∧
    ((m.map Prod.fst).Nodup →
      ((ps.foldl
          (fun m p => if serviceMatchesCdn p.2 s then addCdnUrl m p.1 s.url else m) m).map
        Prod.fst).Nodup) ∧
    ((∀ e ∈ m, e.2.Nodup) →
      ∀ e ∈ ps.foldl
          (fun m p => if serviceMatchesCdn p.2 s then addCdnUrl m p.1 s.url else m) m,
        e.2.Nodup) := by
  induction ps generalizing m with
  | nil => simp
  | cons p rest ih =>
    simp only [List.foldl_cons]
    by_cases hm : serviceMatchesCdn p.2 s
    · rw [if_pos hm]
      refine ⟨?_, ?_, ?_⟩
      · rw [(ih (addCdnUrl m p.1 s.url)).1, mem_addCdnUrl]
        constructor
        · rintro ((h | ⟨rfl, rfl⟩) | ⟨rfl, pats, hp, hmat⟩)
          · exact Or.inl h
          · exact Or.inr ⟨rfl, p.2, by simp [hm]⟩
          · exact Or.inr ⟨rfl, pats, List.mem_cons_of_mem _ hp, hmat⟩
        · rintro (h | ⟨rfl, pats, hp, hmat⟩)
          · exact Or.inl (Or.inl h)
          · rcases List.mem_cons.mp hp with heq | hp'
            · exact Or.inl (Or.inr ⟨by rw [← heq], rfl⟩)
            · exact Or.inr ⟨rfl, pats, hp', hmat⟩
      · intro h
        exact (ih (addCdnUrl m p.1 s.url)).2.1 (keysNodup_addCdnUrl _ _ h)
      · intro h
        exact (ih (addCdnUrl m p.1 s.url)).2.2 (urlsNodup_addCdnUrl _ _ h)
    · rw [if_neg hm]
      refine ⟨?_, (ih m).2.1, (ih m).2.2⟩
      rw [(ih m).1]
      constructor
      · rintro (h | ⟨rfl, pats, hp, hmat⟩)
        · exact Or.inl h
        · exact Or.inr ⟨rfl, pats, List.mem_cons_of_mem _ hp, hmat⟩
      · rintro (h | ⟨rfl, pats, hp, hmat⟩)
        · exact Or.inl h
        · rcases List.mem_cons.mp hp with heq | hp'
          · exfalso
            have h2 : pats = p.2 := by rw [← heq]
            exact hm (h2 ▸ hmat)
          · exact Or.inr ⟨rfl, pats, hp', hmat⟩

/-- C9, amended: provider attribution is independent per provider — a
service URL is recorded under provider `nm` exactly when some pattern of
`nm` matches the service's searchable text (the `break` only stops that
provider's own pattern loop), so one service may be attributed to
several CDNs; provider keys are unique and each URL set is
duplicate-free. -/
theorem c9_amended (services : List Service) (nm u : String) :
    (((detectCdnProviders services).map Prod.fst).Nodup ∧
      ∀ e ∈ detectCdnProviders services, e.2.Nodup) ∧
    ((∃ urls, (nm, urls) ∈ detectCdnProviders services ∧ u ∈ urls) ↔
      ∃ pats, (nm, pats) ∈ cdnPatterns ∧
        ∃ s ∈ services, s.url = u ∧ serviceMatchesCdn pats s = true) := by
  have main : ∀ (ss : List Service) (m : List (String × List String)),
      ((∃ urls, (nm, urls) ∈ ss.foldl
          (fun m s => cdnPatterns.foldl
            (fun m p => if serviceMatchesCdn p.2 s then addCdnUrl m p.1 s.url else m) m)
          m ∧ u ∈ urls) ↔
        (∃ urls, (nm, urls) ∈ m ∧ u ∈ urls) ∨
          ∃ pats, (nm, pats) ∈ cdnPatterns ∧
            ∃ s ∈ ss, s.url = u ∧ serviceMatchesCdn pats s = true) ∧
      ((m.map Prod.fst).Nodup →
        ((ss.foldl
            (fun m s => cdnPatterns.foldl
              (fun m p => if serviceMatchesCdn p.2 s then addCdnUrl m p.1 s.url else m) m)
            m).map Prod.fst).Nodup) ∧
      ((∀ e ∈ m, e.2.Nodup) →
        ∀ e ∈ ss.foldl
            (fun m s => cdnPatterns.foldl
              (fun m p => if serviceMatchesCdn p.2 s then addCdnUrl m p.1 s.url else m) m)
            m, e.2.Nodup) := by
    intro ss
    induction ss with
    | nil => simp
    | cons s rest ih =>
      intro m
      simp only [List.foldl_cons]
      set m1 := cdnPatterns.foldl
        (fun m p => if serviceMatchesCdn p.2 s then addCdnUrl m p.1 s.url else m) m with hm1
      refine ⟨?_, ?_, ?_⟩
      · rw [(ih m1).1, (cdnService_fold s cdnPatterns m nm u).1]
        constructor
        · rintro ((h | ⟨rfl, pats, hp, hmat⟩) | ⟨pats, hp, s', hs', rfl, hmat⟩)
          · exact Or.inl h
          · exact Or.inr ⟨pats, hp, s, List.mem_cons_self .., rfl, hmat⟩
          · exact Or.inr ⟨pats, hp, s', List.mem_cons_of_mem _ hs', rfl, hmat⟩
        · rintro (h | ⟨pats, hp, s', hs', rfl, hmat⟩)
          · exact Or.inl (Or.inl h)
          · rcases List.mem_cons.mp hs' with rfl | hs''
            · exact Or.inl (Or.inr ⟨rfl, pats, hp, hmat⟩)
            · exact Or.inr ⟨pats, hp, s', hs'', rfl, hmat⟩
      · intro h
        exact (ih m1).2.1 ((cdnService_fold s cdnPatterns m nm u).2.1 h)
      · intro h
        exact (ih m1).2.2 ((cdnService_fold s cdnPatterns m nm u).2.2 h)
  refine ⟨⟨(main services []).2.1 (by simp), (main services []).2.2 (by simp)⟩, ?_⟩
  rw [show detectCdnProviders services = services.foldl
      (fun m s => cdnPatterns.foldl
        (fun m p => if serviceMatchesCdn p.2 s then addCdnUrl m p.1 s.url else m) m)
      [] from rfl, (main services []).1]
  simp

/-! ## C8 — path-parameter extraction -/

/-- C8, counterexample: a 32-character lower-hex segment (not all
digits).  Under the pattern order in the source it is classified `slug`;
under the order the claim states (hash before slug) it would be `hash` —
so the claimed precedence order is not the implemented one. -/
theorem c8_counterexample :
    (extractPathParameters ["http://h/abcdefabcdefabcdefabcdefabcdefab"]).map
        (fun p => p.name) = ["slug"] ∧
    (claimOrderExtractPathParameters
        ["http://h/abcdefabcdefabcdefabcdefabcdefab"]).map
        (fun p => p.name) = ["hash"] ∧
    hashBody "abcdefabcdefabcdefabcdefabcdefab".toList = true ∧
    extractPathParameters ["http://h/abcdefabcdefabcdefabcdefabcdefab"] ≠
      claimOrderExtractPathParameters
        ["http://h/abcdefabcdefabcdefabcdefabcdefab"] := by
  decide

theorem isSlugChar_of_isHexLower {c : Char} (h : isHexLower c = true) :
    isSlugChar c = true := by
  simp only [isHexLower, isDigitCh, Bool.or_eq_true, Bool.and_eq_true,
    decide_eq_true_eq] at h
  simp only [isSlugChar, isDigitCh, Bool.or_eq_true, Bool.and_eq_true,
    decide_eq_true_eq]
  rcases h with h | h
  · exact Or.inl (Or.inl (Or.inr h))
  · exact Or.inl (Or.inl (Or.inl ⟨h.1, le_trans h.2 (by decide)⟩))

theorem isSlugChar_of_isDigitCh {c : Char} (h : isDigitCh c = true) :
    isSlugChar c = true := by
  simp only [isSlugChar, Bool.or_eq_true]
  exact Or.inl (Or.inl (Or.inr h))

theorem ne_dash_of_isHexLower {c : Char} (h : isHexLower c = true) : c ≠ '-' := by
  rintro rfl
  simp [isHexLower, isDigitCh] at h

/-- A list containing no separator splits into the single whole piece. -/
theorem splitOnChar_eq_single {c : Char} {s : List Char}
    (h : ∀ x ∈ s, x ≠ c) : splitOnChar c s = [s] := by
  induction s with
  | nil => rfl
  | cons x xs ih =>
    unfold splitOnChar
    rw [if_neg (h x (List.mem_cons_self _ _))]
    rw [ih (fun y hy => h y (List.mem_cons_of_mem _ hy))]

theorem bool_eq_false {b : Bool} (h : ¬b = true) : b = false := by
  cases b <;> simp_all

theorem slugBody_of_hashBody {s : List Char} (h : hashBody s = true) :
    slugBody s = true := by
  simp only [hashBody, Bool.and_eq_true, decide_eq_true_eq, List.all_eq_true] at h
  simp only [slugBody, Bool.and_eq_true, decide_eq_true_eq, List.all_eq_true]
  refine ⟨?_, fun x hx => isSlugChar_of_isHexLower (h.2 x hx)⟩
  intro hnil
  rw [hnil] at h
  simp at h

theorem uuidBody_eq_false_of_hashBody {s : List Char} (h : hashBody s = true) :
    uuidBody s = false := by
  simp only [hashBody, Bool.and_eq_true, decide_eq_true_eq, List.all_eq_true] at h
  have hsplit : splitOnChar '-' s = [s] :=
    splitOnChar_eq_single (fun x hx => ne_dash_of_isHexLower (h.2 x hx))
  unfold uuidBody
  rw [hsplit]

theorem dateBody_elim {s : List Char} (h : dateBody s = true) :
    ∃ a b c d e f g i, s = [a, b, c, d, '-', e, f, '-', g, i] ∧
      ([a, b, c, d, e, f, g, i].all isDigitCh) = true := by
  unfold dateBody at h
  split at h
  · next a b c d e f g i => exact ⟨a, b, c, d, e, f, g, i, rfl, h⟩
  · exact absurd h (by simp)

theorem slugBody_of_dateBody {s : List Char} (h : dateBody s = true) :
    slugBody s = true := by
  obtain ⟨a, b, c, d, e, f, g, i, rfl, hd⟩ := dateBody_elim h
  simp only [List.all_eq_true] at hd
  simp only [slugBody, Bool.and_eq_true, decide_eq_true_eq, List.all_eq_true]
  refine ⟨by simp, ?_⟩
  intro x hx
  simp only [List.mem_cons, List.not_mem_nil, or_false] at hx
  rcases hx with rfl | rfl | rfl | rfl | rfl | rfl | rfl | rfl | rfl | rfl <;>
    first
      | decide
      | exact isSlugChar_of_isDigitCh (hd _ (by simp))

theorem idBody_eq_false_of_dateBody {s : List Char} (h : dateBody s = true) :
    idBody s = false := by
  obtain ⟨a, b, c, d, e, f, g, i, rfl, _⟩ := dateBody_elim h
  cases hb : idBody [a, b, c, d, '-', e, f, '-', g, i] with
  | false => rfl
  | true =>
    simp only [idBody, Bool.and_eq_true, decide_eq_true_eq,
      List.all_eq_true] at hb
    have := hb.2 '-' (by simp)
    simp [isDigitCh] at this

/-- `splitOnChar` never returns the empty list. -/
theorem splitOnChar_ne_nil (c : Char) (s : List Char) : splitOnChar c s ≠ [] := by
  induction s with
  | nil => simp [splitOnChar]
  | cons x xs ih =>
    unfold splitOnChar
    by_cases hx : x = c
    · simp [hx]
    · rw [if_neg hx]
      cases hr : splitOnChar c xs with
      | nil => exact absurd hr ih
      | cons hh tt => simp [hr]

/-- Length accounting for `splitOnChar`. -/
theorem splitOnChar_length (c : Char) (s : List Char) :
    ((splitOnChar c s).map List.length).sum + (splitOnChar c s).length
      = s.length + 1 := by
  induction s with
  | nil => simp [splitOnChar]
  | cons x xs ih =>
    unfold splitOnChar
    by_cases hx : x = c
    · rw [if_pos hx]
      simp only [List.map_cons, List.sum_cons, List.length_cons, List.length_nil]
      omega
    · rw [if_neg hx]
      cases hr : splitOnChar c xs with
      | nil => exact absurd hr (splitOnChar_ne_nil c xs)
      | cons hh tt =>
        rw [hr] at ih
        simp only [hr, List.map_cons, List.sum_cons, List.length_cons] at ih ⊢
        omega

theorem uuidBody_length {s : List Char} (h : uuidBody s = true) :
    s.length = 36 := by
  unfold uuidBody at h
  split at h
  · next g1 g2 g3 g4 g5 heq =>
    simp only [Bool.and_eq_true, decide_eq_true_eq] at h
    have := splitOnChar_length '-' s
    rw [heq] at this
    simp only [List.map_cons, List.map_nil, List.sum_cons, List.sum_nil,
      List.length_cons, List.length_nil] at this
    omega
  · exact absurd h (by simp)

theorem dateBody_length {s : List Char} (h : dateBody s = true) :
    s.length = 10 := by
  obtain ⟨a, b, c, d, e, f, g, i, rfl, _⟩ := dateBody_elim h
  rfl

theorem uuidBody_eq_false_of_dateBody {s : List Char} (h : dateBody s = true) :
    uuidBody s = false := by
  cases hu : uuidBody s with
  | false => rfl
  | true =>
    have h36 := uuidBody_length hu
    have h10 := dateBody_length h
    omega

/-- A hex segment that is not all digits is classified `slug` by the
implemented pattern order (the `hash` pattern is shadowed). -/
theorem firstPattern_hash_goes_slug {s : List Char} (hh : hashBody s = true)
    (hi : idBody s = false) :
    firstPatternIn pathParamPatterns s =
      some ("slug", "/([a-z0-9\\-_]+)(?:/|$)") := by
  have hu := uuidBody_eq_false_of_hashBody hh
  have hs := slugBody_of_hashBody hh
  simp [firstPatternIn, pathParamPatterns, List.find?, hu, hi, hs]

/-- A `YYYY-MM-DD` segment is classified `slug` (the `date` pattern is
shadowed). -/
theorem firstPattern_date_goes_slug {s : List Char} (hd : dateBody s = true) :
    firstPatternIn pathParamPatterns s =
      some ("slug", "/([a-z0-9\\-_]+)(?:/|$)") := by
  have hu := uuidBody_eq_false_of_dateBody hd
  have hi := idBody_eq_false_of_dateBody hd
  have hs := slugBody_of_dateBody hd
  simp [firstPatternIn, pathParamPatterns, List.find?, hu, hi, hs]

/-- Only `uuid`, `id`, `slug`, `email` can be produced by the matcher. -/
theorem firstPattern_name_allowed {s : List Char} {nm pat : String}
    (h : firstPatternIn pathParamPatterns s = some (nm, pat)) :
    nm ∈ (["uuid", "id", "slug", "email"] : List String) := by
  by_cases h1 : uuidBody s = true
  · simp [firstPatternIn, pathParamPatterns, List.find?, h1] at h
    simp [← h.1]
  · by_cases h2 : idBody s = true
    · simp [firstPatternIn, pathParamPatterns, List.find?,
        bool_eq_false h1, h2] at h
      simp [← h.1]
    · by_cases h3 : slugBody s = true
      · simp [firstPatternIn, pathParamPatterns, List.find?,
          bool_eq_false h1, bool_eq_false h2, h3] at h
        simp [← h.1]
      · by_cases h4 : emailBody s = true
        · simp [firstPatternIn, pathParamPatterns, List.find?,
            bool_eq_false h1, bool_eq_false h2,
            bool_eq_false h3, h4] at h
          simp [← h.1]
        · have h5 : hashBody s = false := by
            cases h5' : hashBody s with
            | false => rfl
            | true => exact absurd (slugBody_of_hashBody h5') h3
          have h6 : dateBody s = false := by
            cases h6' : dateBody s with
            | false => rfl
            | true => exact absurd (slugBody_of_dateBody h6') h3
          simp [firstPatternIn, pathParamPatterns, List.find?,
            bool_eq_false h1, bool_eq_false h2,
            bool_eq_false h3, bool_eq_false h4, h5, h6] at h

theorem nodup_appendIfNew {α : Type _} [DecidableEq α] {l : List α} (v : α)
    (h : l.Nodup) : (if v ∈ l then l else l ++ [v]).Nodup := by
  by_cases hv : v ∈ l
  · rw [if_pos hv]
    exact h
  · rw [if_neg hv]
    rw [List.nodup_append]
    refine ⟨h, List.nodup_singleton _, ?_⟩
    intro a ha hb
    exact hv (List.mem_singleton.mp hb ▸ ha)

/-- Per-key updates leave the key list unchanged. -/
theorem keys_map_update {β : Type _} (m : List ((Nat × String) × β))
    (key : Nat × String) (f : (Nat × String) × β → β) :
    (m.map (fun e => if e.1 = key then (e.1, f e) else e)).map Prod.fst =
      m.map Prod.fst := by
  rw [List.map_map]
  refine List.map_congr_left (fun e _ => ?_)
  by_cases hc : e.1 = key <;> simp [hc]

theorem paramInv_addParamValue {m : List ((Nat × String) × PathParameter)}
    {i : Nat} {nm pat v : String}
    (hnm : nm ∈ (["uuid", "id", "slug", "email"] : List String))
    (h : ParamInv m) : ParamInv (addParamValue m i nm pat v) := by
  obtain ⟨hkeys, hent⟩ := h
  simp only [addParamValue]
  cases hf : m.find? (fun e => e.1 = (i, nm)) with
  | none =>
    refine ⟨?_, ?_⟩
    · have hkey : (i, nm) ∉ m.map Prod.fst := by
        intro hmem
        obtain ⟨e, he, hfst⟩ := List.mem_map.mp hmem
        have := List.find?_eq_none.mp hf e he
        simp [hfst] at this
      rw [List.map_append]
      simp only [List.map_cons, List.map_nil]
      rw [List.nodup_append]
      refine ⟨hkeys, List.nodup_singleton _, ?_⟩
      intro a ha hb
      exact hkey (List.mem_singleton.mp hb ▸ ha)
    · intro e he
      rcases List.mem_append.mp he with hm | hs
      · exact hent e hm
      · rcases List.mem_singleton.mp hs with rfl
        exact ⟨rfl, rfl, List.nodup_singleton _, hnm⟩
  | some e0 =>
    refine ⟨?_, ?_⟩
    · rw [keys_map_update]
      exact hkeys
    · intro e he
      obtain ⟨e', he', heq⟩ := List.mem_map.mp he
      by_cases hc : e'.1 = (i, nm)
      · rw [if_pos hc] at heq
        obtain ⟨hn, hp, hex, hal⟩ := hent e' he'
        rcases heq.symm with rfl
        exact ⟨hn, hp, nodup_appendIfNew v hex, hal⟩
      · rw [if_neg hc] at heq
        exact heq ▸ hent e' he'

theorem paramInv_extractParamsOfUrl
    {m : List ((Nat × String) × PathParameter)} (url : String)
    (h : ParamInv m) : ParamInv (extractParamsOfUrl pathParamPatterns m url) := by
  unfold extractParamsOfUrl
  generalize (pathSegments url).enum = l
  induction l generalizing m with
  | nil => exact h
  | cons p rest ih =>
    simp only [List.foldl_cons]
    cases hfp : firstPatternIn pathParamPatterns p.2 with
    | none => exact ih h
    | some np =>
      obtain ⟨nm, pat⟩ := np
      exact ih (paramInv_addParamValue (firstPattern_name_allowed hfp) h)

/-- C8, amended: the precedence order is the source order — uuid, id,
slug, email, hash, date — so `hash` and `date` never win (every hex-hash
segment that is not all digits and every date segment is classified
`slug`); parameters are keyed by `(segment position, pattern name)` with
pairwise-distinct keys, example values are deduplicated, and only the
names uuid/id/slug/email can appear. -/
theorem c8_amended (urls : List String) :
    ((extractPathParameters urls).map (fun p => (p.position, p.name))).Nodup ∧
    (∀ p ∈ extractPathParameters urls,
      p.exampleValues.Nodup ∧
      p.name ∈ (["uuid", "id", "slug", "email"] : List String)) ∧
    (∀ s : List Char, hashBody s = true → idBody s = false →
      firstPatternIn pathParamPatterns s =
        some ("slug", "/([a-z0-9\\-_]+)(?:/|$)")) ∧
    (∀ s : List Char, dateBody s = true →
      firstPatternIn pathParamPatterns s =
        some ("slug", "/([a-z0-9\\-_]+)(?:/|$)")) := by
  have hinv : ParamInv (urls.foldl (extractParamsOfUrl pathParamPatterns) []) := by
    induction urls using List.reverseRecOn with
    | nil => exact ⟨List.nodup_nil, by simp⟩
    | append_singleton us u ih =>
      rw [List.foldl_append, List.foldl_cons, List.foldl_nil]
      exact paramInv_extractParamsOfUrl u ih
  obtain ⟨hkeys, hent⟩ := hinv
  refine ⟨?_, ?_, fun s hh hid => firstPattern_hash_goes_slug hh hid,
    fun s hd => firstPattern_date_goes_slug hd⟩
  · have : (extractPathParameters urls).map (fun p => (p.position, p.name)) =
        (urls.foldl (extractParamsOfUrl pathParamPatterns) []).map Prod.fst := by
      unfold extractPathParameters extractPathParametersWith
      rw [List.map_map]
      refine List.map_congr_left (fun e he => ?_)
      obtain ⟨hn, hp, _, _⟩ := hent e he
      simp only [Function.comp_apply]
      rw [hn, hp]
    rw [this]
    exact hkeys
  · intro p hp
    unfold extractPathParameters extractPathParametersWith at hp
    obtain ⟨e, he, heq⟩ := List.mem_map.mp hp
    obtain ⟨_, _, hex, hal⟩ := hent e he
    exact heq ▸ ⟨hex, hal⟩

/-! ## C3 — dependency gating on zero subdomains -/

/-- C3: when passive discovery yields zero subdomains, the port and
active stages skip themselves with the warning the source logs and
contribute nothing, and the run still finishes `Completed` with no
error, whatever the other stage modules would have done. -/
theorem c3_zero_subdomains (b : StageBehaviors) (sv : Bool) (d : DomainInfo)
    (hp : b.passive = .ok d) (hs : d.subdomains = []) :
    (discover b sv).2 = none ∧
    (discover b sv).1.status = .completed ∧
    (discover b sv).1.error = none ∧
    (discover b sv).1.services = [] ∧
    (discover b sv).1.endpoints = [] ∧
    (discover b sv).1.findings = [] ∧
    "No subdomains found in passive discovery, skipping port discovery" ∈
      (discover b sv).1.warnings ∧
    "No subdomains found in passive discovery, skipping active stage" ∈
      (discover b sv).1.warnings := by
  cases he : b.enrich with
  | ok infra =>
    cases sv <;>
      simp [discover, runPassiveStage, runPortStage, runActiveStage, runDeepStage,
        runEnrichStage, runVulnStage, finalizeRun, addEvent, addWarning, initResult,
        updateStatistics, hp, hs, he, Except.bind, bind, pure, Except.pure]
  | error e =>
    cases sv <;>
      simp [discover, runPassiveStage, runPortStage, runActiveStage, runDeepStage,
        runEnrichStage, runVulnStage, finalizeRun, addEvent, addWarning, initResult,
        updateStatistics, hp, hs, he, Except.bind, bind, pure, Except.pure]

/-- C3, witness at concrete behaviors. -/
theorem c3_zero_subdomains_witness :
    (discover bC3 false).2 = none ∧
    (discover bC3 false).1.status = .completed ∧
    (discover bC3 false).1.error = none ∧
    (discover bC3 false).1.services = [] ∧
    (discover bC3 false).1.endpoints = [] ∧
    (discover bC3 false).1.findings = [] ∧
    "No subdomains found in passive discovery, skipping port discovery" ∈
      (discover bC3 false).1.warnings ∧
    "No subdomains found in passive discovery, skipping active stage" ∈
      (discover bC3 false).1.warnings :=
  c3_zero_subdomains bC3 false ⟨"r", [], 0, 0⟩ rfl rfl

/-! ## C10 — the liveness update of the active stage -/

set_option maxHeartbeats 1600000 in
/-- C10: after the active stage runs on a non-empty subdomain list, every
subdomain is marked `live` exactly when its name occurs as a substring
of a probed service URL and `dead` otherwise (none stays `unknown`), and
`live_subdomains` counts the live ones. -/
theorem c10_active_liveness (b : StageBehaviors) (sv : Bool) (d : DomainInfo)
    (svcs : List Service)
    (hp : b.passive = .ok d) (hne : d.subdomains ≠ []) (ha : b.active = .ok svcs) :
    ∃ d', (discover b sv).1.domains = some d' ∧
      d'.subdomains.map (fun s => (s.name, s.status)) =
        d.subdomains.map (fun s =>
          (s.name, if subdomainIsLive (svcs.map Service.url) s.name then "live"
           else "dead")) ∧
      d'.liveSubdomains =
        (d'.subdomains.filter (fun s => s.status = "live")).length ∧
      ∀ s ∈ d'.subdomains, s.status ≠ "unknown" := by
  cases hport : b.port <;> by_cases hsvc : svcs = [] <;> cases hdeep : b.deep <;>
    cases hen : b.enrich <;> cases hvl : b.vuln <;> cases sv <;>
    simp [discover, runPassiveStage, runPortStage, runActiveStage, runDeepStage,
      runEnrichStage, runVulnStage, finalizeRun, addEvent, addWarning, initResult,
      updateStatistics, hp, hne, ha, hport, hsvc, hdeep, hen, hvl, List.map_eq_nil_iff,
      Except.bind, bind, pure, Except.pure] <;>
    first
      | (refine ⟨_, rfl, by simp [List.map_map], rfl, ?_⟩
         intro s hs
         obtain ⟨x, hx, rfl⟩ := List.mem_map.mp hs
         dsimp only
         split <;> decide)
      | (intro s hs
         split <;> decide)

/-- C10, witness: one live subdomain, one dead. -/
theorem c10_active_liveness_witness :
    ∃ d', (discover bC10 false).1.domains = some d' ∧
      d'.subdomains.map (fun s => (s.name, s.status)) =
        ([⟨"a.r", [], "unknown", []⟩, ⟨"b.r", [], "unknown", []⟩] :
            List Subdomain).map (fun s =>
          (s.name,
           if subdomainIsLive (([⟨"https://a.r/", none, []⟩] : List Service).map
             Service.url) s.name then "live" else "dead")) ∧
      d'.liveSubdomains =
        (d'.subdomains.filter (fun s => s.status = "live")).length ∧
      ∀ s ∈ d'.subdomains, s.status ≠ "unknown" :=
  c10_active_liveness bC10 false
    ⟨"r", [⟨"a.r", [], "unknown", []⟩, ⟨"b.r", [], "unknown", []⟩], 2, 0⟩
    [⟨"https://a.r/", none, []⟩] rfl (by decide) rfl

/-! ## C1 — the per-stage failure policy -/

set_option maxHeartbeats 4000000 in
/-- C1: `discover` raises exactly the first exception of a hard-fail
stage (Passive, Active, Deep) that actually runs; when it raises, the
status is `Failed` with the message captured in `metadata.error`, and
the later soft stages never contribute; exceptions of the Port,
Enrichment and Vulnerability stages are logged on the timeline, leave
that stage's contribution empty, and the pipeline proceeds. -/
theorem c1_failure_policy (b : StageBehaviors) (sv : Bool) :
    (discover b sv).2 = hardFirstError b ∧
    (discover b sv).1.error = (discover b sv).2 ∧
    (discover b sv).1.status =
      (if (hardFirstError b).isSome then DiscoveryStage.failed
       else DiscoveryStage.completed) ∧
    ((discover b sv).2.isSome →
      (discover b sv).1.infrastructure = none ∧ (discover b sv).1.findings = []) ∧
    (∀ d e, b.passive = .ok d → d.subdomains ≠ [] → b.port = .error e →
      (∀ d', (discover b sv).1.domains = some d' →
        d'.subdomains.map (fun s => s.openPorts) =
          d.subdomains.map (fun s => s.openPorts)) ∧
      (DiscoveryStage.passiveDiscovery, "Port discovery failed: " ++ e) ∈
        (discover b sv).1.timeline) ∧
    (∀ e, hardFirstError b = none → b.enrich = .error e →
      (discover b sv).1.infrastructure = none ∧
      (DiscoveryStage.enrichment, "Enrichment failed: " ++ e) ∈
        (discover b sv).1.timeline) ∧
    (∀ e, hardFirstError b = none → sv = false → (discover b sv).1.services ≠ [] →
      b.vuln = .error e →
      (discover b sv).1.findings = [] ∧
      (DiscoveryStage.completed, "Vulnerability scanning failed: " ++ e) ∈
        (discover b sv).1.timeline) ∧
    (∀ e, b.passive = .error e → (discover b sv).1.domains = none ∧
      (discover b sv).1.services = []) := by
  cases hp : b.passive with
  | error e0 =>
    cases sv <;>
      simp [discover, hardFirstError, runPassiveStage, runPortStage, runActiveStage,
        runDeepStage, runEnrichStage, runVulnStage, finalizeRun, addEvent, addWarning,
        initResult, updateStatistics, hp, Except.bind, bind, pure, Except.pure]
  | ok d =>
    by_cases hsub : d.subdomains = []
    · cases hport : b.port <;> cases hen : b.enrich <;> cases sv <;>
        simp [discover, hardFirstError, runPassiveStage, runPortStage, runActiveStage,
          runDeepStage, runEnrichStage, runVulnStage, finalizeRun, addEvent, addWarning,
          initResult, updateStatistics, hp, hsub, hport, hen,
          Except.bind, bind, pure, Except.pure]
    · cases hport : b.port with
      | error e2 =>
        cases ha : b.active with
        | error e1 =>
          cases sv <;>
            simp [discover, hardFirstError, runPassiveStage, runPortStage,
              runActiveStage, runDeepStage, runEnrichStage, runVulnStage, finalizeRun,
              addEvent, addWarning, initResult, updateStatistics, hp, hsub, hport, ha,
              Except.bind, bind, pure, Except.pure]
        | ok svcs =>
          by_cases hsvc : svcs = []
          · cases hen : b.enrich <;> cases sv <;>
              simp [discover, hardFirstError, runPassiveStage, runPortStage,
                runActiveStage, runDeepStage, runEnrichStage, runVulnStage, finalizeRun,
                addEvent, addWarning, initResult, updateStatistics, hp, hsub, hport, ha,
                hsvc, hen, List.map_eq_nil_iff, Except.bind, bind, pure, Except.pure]
          · cases hdeep : b.deep <;> cases hen : b.enrich <;> cases hvl : b.vuln <;>
              cases sv <;>
              simp [discover, hardFirstError, runPassiveStage, runPortStage,
                runActiveStage, runDeepStage, runEnrichStage, runVulnStage, finalizeRun,
                addEvent, addWarning, initResult, updateStatistics, hp, hsub, hport, ha,
                hsvc, hdeep, hen, hvl, List.map_eq_nil_iff, List.map_map,
                Except.bind, bind, pure, Except.pure]
      | ok ports =>
        cases ha : b.active with
        | error e1 =>
          cases sv <;>
            simp [discover, hardFirstError, runPassiveStage, runPortStage,
              runActiveStage, runDeepStage, runEnrichStage, runVulnStage, finalizeRun,
              addEvent, addWarning, initResult, updateStatistics, hp, hsub, hport, ha,
              List.map_eq_nil_iff, Except.bind, bind, pure, Except.pure]
        | ok svcs =>
          by_cases hsvc : svcs = []
          · cases hen : b.enrich <;> cases sv <;>
              simp [discover, hardFirstError, runPassiveStage, runPortStage,
                runActiveStage, runDeepStage, runEnrichStage, runVulnStage, finalizeRun,
                addEvent, addWarning, initResult, updateStatistics, hp, hsub, hport, ha,
                hsvc, hen, List.map_eq_nil_iff, Except.bind, bind, pure, Except.pure]
          · cases hdeep : b.deep <;> cases hen : b.enrich <;> cases hvl : b.vuln <;>
              cases sv <;>
              simp [discover, hardFirstError, runPassiveStage, runPortStage,
                runActiveStage, runDeepStage, runEnrichStage, runVulnStage, finalizeRun,
                addEvent, addWarning, initResult, updateStatistics, hp, hsub, hport, ha,
                hsvc, hdeep, hen, hvl, List.map_eq_nil_iff, List.map_map,
                Except.bind, bind, pure, Except.pure]

/-- C1, witness: port, enrichment and vulnerability all throw while the
hard stages succeed — the run completes, the three failures are logged,
and their contributions stay empty. -/
theorem c1_failure_policy_witness :
    (discover bC1 false).2 = none ∧
    (discover bC1 false).1.status = DiscoveryStage.completed ∧
    (∀ d', (discover bC1 false).1.domains = some d' →
      d'.subdomains.map (fun s => s.openPorts) =
        ([⟨"a.r", [], "unknown", []⟩] : List Subdomain).map (fun s => s.openPorts)) ∧
    (DiscoveryStage.passiveDiscovery, "Port discovery failed: port boom") ∈
      (discover bC1 false).1.timeline ∧
    (discover bC1 false).1.infrastructure = none ∧
    (DiscoveryStage.enrichment, "Enrichment failed: enrich boom") ∈
      (discover bC1 false).1.timeline ∧
    (discover bC1 false).1.findings = [] ∧
    (DiscoveryStage.completed, "Vulnerability scanning failed: vuln boom") ∈
      (discover bC1 false).1.timeline := by
  obtain ⟨h1, h2, h3, h4, h5, h6, h7, h8⟩ := c1_failure_policy bC1 false
  have hport := h5 ⟨"r", [⟨"a.r", [], "unknown", []⟩], 1, 0⟩ "port boom" rfl
    (by decide) rfl
  have hen := h6 "enrich boom" rfl rfl
  have hvl := h7 "vuln boom" rfl rfl (by decide) rfl
  exact ⟨h1.trans rfl, by rw [h3]; rfl, hport.1, hport.2, hen.1, hen.2,
    hvl.1, hvl.2⟩

/-! ## C2 — crawler visit and depth bounds -/

/-- C2, counterexample: two seeds whose pages have no links, `maxURLs =
1`: both seeds are navigated to — 2 visits, exceeding the claimed bound
of `maxURLs = 1` total visits (the cap only counts discovered URLs,
which stays 0 here). -/
theorem c2_counterexample :
    (crawl webC2 1 1 ["http://a.com/", "http://b.com/"]).visitLog.length = 2 ∧
    ¬((crawl webC2 1 1 ["http://a.com/", "http://b.com/"]).visitLog.length ≤ 1) := by
  decide

theorem length_filter_split {α : Type _} (p : α → Bool) (l : List α) :
    l.length = (l.filter p).length + (l.filter (fun a => !(p a))).length := by
  induction l with
  | nil => rfl
  | cons x xs ih =>
    cases hx : p x <;> simp [List.filter_cons, hx, ih] <;> omega

theorem crawlUrl_zero_cap (web : Web) (maxDepth : Nat) :
    ∀ fuel url depth st, crawlUrl web maxDepth 0 fuel url depth st = st := by
  intro fuel url depth st
  cases fuel with
  | zero => rfl
  | succ f =>
    simp only [crawlUrl]
    by_cases h1 : maxDepth < depth
    · rw [if_pos h1]
    · rw [if_neg h1, if_pos (Nat.zero_le _)]

theorem crawlSeeds_zero_cap (web : Web) (maxDepth : Nat) :
    ∀ rest st, crawlSeeds web maxDepth 0 rest st = st := by
  intro rest st
  cases rest with
  | nil => rfl
  | cons u us =>
    simp only [crawlSeeds, crawlUrl_zero_cap]
    rw [if_pos (Nat.zero_le _)]

theorem crawl_inv_fuel (web : Web) (maxDepth maxUrls : Nat) (seeds : List String) :
    ∀ fuel : Nat,
      (∀ url depth st, (url ∈ seeds ∨ url ∈ st.discovered) →
        CrawlInv seeds maxDepth maxUrls st →
        CrawlInv seeds maxDepth maxUrls
          (crawlUrl web maxDepth maxUrls fuel url depth st) ∧
        st.discovered ⊆ (crawlUrl web maxDepth maxUrls fuel url depth st).discovered) ∧
      (∀ base depth links, ∀ st : CrawlState, (∀ l ∈ links, l ∈ st.discovered) →
        CrawlInv seeds maxDepth maxUrls st →
        CrawlInv seeds maxDepth maxUrls
          (crawlLinksLoop maxUrls
            (fun l s => crawlUrl web maxDepth maxUrls fuel l (depth + 1) s)
            base links st) ∧
        st.discovered ⊆
          (crawlLinksLoop maxUrls
            (fun l s => crawlUrl web maxDepth maxUrls fuel l (depth + 1) s)
            base links st).discovered) := by
  intro fuel
  induction fuel with
  | zero =>
    constructor
    · intro url depth st _ hinv
      exact ⟨hinv, fun x hx => hx⟩
    · intro base depth links
      induction links with
      | nil =>
        intro st _ hinv
        simp only [crawlLinksLoop]
        exact ⟨hinv, fun x hx => hx⟩
      | cons l ls ihl =>
        intro st hl hinv
        simp only [crawlLinksLoop]
        have hid : (if isSameDomain base l then
            crawlUrl web maxDepth maxUrls 0 l (depth + 1) st else st) = st := by
          split <;> rfl
        rw [hid]
        by_cases hc : maxUrls ≤ st.discovered.length
        · rw [if_pos hc]
          exact ⟨hinv, fun x hx => hx⟩
        · rw [if_neg hc]
          exact ihl st (fun l' hl' => hl l' (List.mem_cons_of_mem _ hl')) hinv
  | succ fuel ih =>
    have hP : ∀ url depth st, (url ∈ seeds ∨ url ∈ st.discovered) →
        CrawlInv seeds maxDepth maxUrls st →
        CrawlInv seeds maxDepth maxUrls
          (crawlUrl web maxDepth maxUrls (fuel + 1) url depth st) ∧
        st.discovered ⊆
          (crawlUrl web maxDepth maxUrls (fuel + 1) url depth st).discovered := by
      intro url depth st hsrc hinv
      obtain ⟨hvn, hdn, hvs, hfl, hll, hld⟩ := hinv
      simp only [crawlUrl]
      by_cases h1 : maxDepth < depth
      · rw [if_pos h1]
        exact ⟨⟨hvn, hdn, hvs, hfl, hll, hld⟩, fun x hx => hx⟩
      rw [if_neg h1]
      by_cases h2 : maxUrls ≤ st.discovered.length
      · rw [if_pos h2]
        exact ⟨⟨hvn, hdn, hvs, hfl, hll, hld⟩, fun x hx => hx⟩
      rw [if_neg h2]
      by_cases h3 : url ∈ st.visited
      · rw [if_pos h3]
        exact ⟨⟨hvn, hdn, hvs, hfl, hll, hld⟩, fun x hx => hx⟩
      rw [if_neg h3]
      have hfl1 : ((url :: st.visited).filter
          (fun u => decide (u ∉ seeds))).length ≤ maxUrls - 1 := by
        by_cases hseed : url ∈ seeds
        · rw [List.filter_cons, if_neg (by simpa using hseed)]
          exact hfl
        · have hud : url ∈ st.discovered := hsrc.resolve_left hseed
          rw [List.filter_cons, if_pos (by simpa using hseed)]
          have hsub : ∀ x ∈ url :: st.visited.filter (fun u => decide (u ∉ seeds)),
              x ∈ st.discovered := by
            intro x hx
            rcases List.mem_cons.mp hx with rfl | hx'
            · exact hud
            · have hxf := List.mem_filter.mp hx'
              exact (hvs x hxf.1).resolve_left (by simpa using hxf.2)
          have hnd : (url :: st.visited.filter
              (fun u => decide (u ∉ seeds))).Nodup := by
            refine List.nodup_cons.mpr ⟨?_, hvn.filter _⟩
            intro hc
            exact h3 (List.mem_filter.mp hc).1
          have hle := (List.subperm_of_subset hnd hsub).length_le
          simp only [List.length_cons] at hle ⊢
          omega
      have hinv1 : CrawlInv seeds maxDepth maxUrls
          ⟨url :: st.visited, st.discovered, st.visitLog ++ [(url, depth)]⟩ := by
        refine ⟨List.nodup_cons.mpr ⟨h3, hvn⟩, hdn, ?_, hfl1, ?_, ?_⟩
        · intro u hu
          rcases List.mem_cons.mp hu with rfl | hu'
          · exact hsrc
          · exact hvs u hu'
        · simp [hll]
        · intro e he
          rcases List.mem_append.mp he with he' | he''
          · exact hld e he'
          · rcases List.mem_singleton.mp he'' with rfl
            simpa using Nat.le_of_not_lt h1
      cases hw : webLookup web url with
      | none =>
        exact ⟨hinv1, fun x hx => hx⟩
      | some page =>
        obtain ⟨hv1, hd1, hs1, hf1, hl1, he1⟩ := hinv1
        have hinv2 : CrawlInv seeds maxDepth maxUrls
            ⟨url :: st.visited,
             (crawlerExtractUrls page url).foldl (fun d u => insertNew u d)
               st.discovered,
             st.visitLog ++ [(url, depth)]⟩ := by
          refine ⟨hv1, nodup_foldl_insertNew _ hd1, ?_, hf1, hl1, he1⟩
          intro u hu
          rcases hs1 u hu with hs | hd
          · exact Or.inl hs
          · exact Or.inr (subset_foldl_insertNew _ _ hd)
        have hlinks : ∀ l ∈ crawlerExtractUrls page url,
            l ∈ (crawlerExtractUrls page url).foldl (fun d u => insertNew u d)
              st.discovered := by
          intro l hl
          exact (mem_foldl_insertNew _ _ _).mpr (Or.inr hl)
        obtain ⟨hq1, hq2⟩ := ih.2 url depth (crawlerExtractUrls page url)
          ⟨url :: st.visited,
           (crawlerExtractUrls page url).foldl (fun d u => insertNew u d)
             st.discovered,
           st.visitLog ++ [(url, depth)]⟩ hlinks hinv2
        refine ⟨hq1, ?_⟩
        intro x hx
        exact hq2 (subset_foldl_insertNew _ _ hx)
    refine ⟨hP, ?_⟩
    intro base depth links
    induction links with
    | nil =>
      intro st _ hinv
      simp only [crawlLinksLoop]
      exact ⟨hinv, fun x hx => hx⟩
    | cons l ls ihl =>
      intro st hl hinv
      simp only [crawlLinksLoop]
      by_cases hsd : isSameDomain base l
      · rw [if_pos hsd]
        obtain ⟨hi1, hm1⟩ := hP l (depth + 1) st
          (Or.inr (hl l (List.mem_cons_self _ _))) hinv
        by_cases hc : maxUrls ≤
            (crawlUrl web maxDepth maxUrls (fuel + 1) l (depth + 1) st).discovered.length
        · rw [if_pos hc]
          exact ⟨hi1, hm1⟩
        · rw [if_neg hc]
          obtain ⟨hi2, hm2⟩ := ihl _
            (fun l' hl' => hm1 (hl l' (List.mem_cons_of_mem _ hl'))) hi1
          exact ⟨hi2, fun x hx => hm2 (hm1 hx)⟩
      · rw [if_neg hsd]
        by_cases hc : maxUrls ≤ st.discovered.length
        · rw [if_pos hc]
          exact ⟨hinv, fun x hx => hx⟩
        · rw [if_neg hc]
          exact ihl st (fun l' hl' => hl l' (List.mem_cons_of_mem _ hl')) hinv

theorem crawlSeeds_inv (web : Web) (maxDepth maxUrls : Nat) (seeds : List String) :
    ∀ rest, ∀ st : CrawlState, (∀ u ∈ rest, u ∈ seeds) →
      CrawlInv seeds maxDepth maxUrls st →
      CrawlInv seeds maxDepth maxUrls (crawlSeeds web maxDepth maxUrls rest st) := by
  intro rest
  induction rest with
  | nil =>
    intro st _ hinv
    exact hinv
  | cons u us ih =>
    intro st hr hinv
    simp only [crawlSeeds]
    obtain ⟨hi1, _⟩ := (crawl_inv_fuel web maxDepth maxUrls seeds (maxDepth + 1)).1
      u 0 st (Or.inl (hr u (List.mem_cons_self _ _))) hinv
    by_cases hc : maxUrls ≤
        (crawlUrl web maxDepth maxUrls (maxDepth + 1) u 0 st).discovered.length
    · rw [if_pos hc]
      exact hi1
    · rw [if_neg hc]
      exact ih _ (fun u' hu' => hr u' (List.mem_cons_of_mem _ hu')) hi1

/-- C2, amended: the crawler never processes any URL at a recursion
depth greater than `maxDepth` (as claimed), but the total number of
URLs it navigates to is bounded by `#seeds + (maxURLs − 1)`, not by
`maxURLs`: each seed is visited regardless of the discovered-URL cap,
which strictly bounds only the non-seed visits; with `maxURLs = 0`
nothing at all is visited. -/
theorem c2_amended (web : Web) (maxDepth maxUrls : Nat) (seeds : List String) :
    (∀ e ∈ (crawl web maxDepth maxUrls seeds).visitLog, e.2 ≤ maxDepth) ∧
    (crawl web maxDepth maxUrls seeds).visitLog.length ≤
      seeds.length + (maxUrls - 1) ∧
    (maxUrls = 0 → (crawl web maxDepth maxUrls seeds).visitLog = []) := by
  have hinv := crawlSeeds_inv web maxDepth maxUrls seeds seeds ⟨[], [], []⟩
    (fun u hu => hu) ⟨List.nodup_nil, List.nodup_nil, by simp, by simp, rfl, by simp⟩
  obtain ⟨hvn, hdn, hvs, hfl, hll, hld⟩ := hinv
  refine ⟨hld, ?_, ?_⟩
  · rw [show crawl web maxDepth maxUrls seeds =
        crawlSeeds web maxDepth maxUrls seeds ⟨[], [], []⟩ from rfl] at *
    rw [hll]
    have hsplit := length_filter_split (fun u => decide (u ∉ seeds))
      (crawlSeeds web maxDepth maxUrls seeds ⟨[], [], []⟩).visited
    have hsubs : ∀ x ∈ (crawlSeeds web maxDepth maxUrls seeds
        ⟨[], [], []⟩).visited.filter (fun u => !(decide (u ∉ seeds))), x ∈ seeds := by
      intro x hx
      have := (List.mem_filter.mp hx).2
      simpa using this
    have hnd2 := hvn.filter (fun u => !(decide (u ∉ seeds)))
    have hle := (List.subperm_of_subset hnd2 hsubs).length_le
    omega
  · intro h0
    subst h0
    rw [show crawl web maxDepth 0 seeds =
        crawlSeeds web maxDepth 0 seeds ⟨[], [], []⟩ from rfl,
      crawlSeeds_zero_cap]

/-- C2, amended, witness at a concrete crawl. -/
theorem c2_amended_witness :
    (∀ e ∈ (crawl webC2 1 5 ["http://a.com/", "http://b.com/"]).visitLog,
      e.2 ≤ 1) ∧
    (crawl webC2 1 5 ["http://a.com/", "http://b.com/"]).visitLog.length ≤
      (["http://a.com/", "http://b.com/"] : List String).length + (5 - 1) := by
  have h := c2_amended webC2 1 5 ["http://a.com/", "http://b.com/"]
  exact ⟨h.1, h.2.1⟩


/-! ## C6: idempotence of `_normalize_url` -/

theorem lowerChar_cases (c : Char) :
    lowerChar c = c ∨ lowerChar c ∈
      ['a','b','c','d','e','f','g','h','i','j','k','l','m',
       'n','o','p','q','r','s','t','u','v','w','x','y','z'] := by
  by_cases h1 : c = 'A'
  · exact Or.inr (by rw [h1]; decide)
  by_cases h2 : c = 'B'
  · exact Or.inr (by rw [h2]; decide)
  by_cases h3 : c = 'C'
  · exact Or.inr (by rw [h3]; decide)
  by_cases h4 : c = 'D'
  · exact Or.inr (by rw [h4]; decide)
  by_cases h5 : c = 'E'
  · exact Or.inr (by rw [h5]; decide)
  by_cases h6 : c = 'F'
  · exact Or.inr (by rw [h6]; decide)
  by_cases h7 : c = 'G'
  · exact Or.inr (by rw [h7]; decide)
  by_cases h8 : c = 'H'
  · exact Or.inr (by rw [h8]; decide)
  by_cases h9 : c = 'I'
  · exact Or.inr (by rw [h9]; decide)
  by_cases h10 : c = 'J'
  · exact Or.inr (by rw [h10]; decide)
  by_cases h11 : c = 'K'
  · exact Or.inr (by rw [h11]; decide)
  by_cases h12 : c = 'L'
  · exact Or.inr (by rw [h12]; decide)
  by_cases h13 : c = 'M'
  · exact Or.inr (by rw [h13]; decide)
  by_cases h14 : c = 'N'
  · exact Or.inr (by rw [h14]; decide)
  by_cases h15 : c = 'O'
  · exact Or.inr (by rw [h15]; decide)
  by_cases h16 : c = 'P'
  · exact Or.inr (by rw [h16]; decide)
  by_cases h17 : c = 'Q'
  · exact Or.inr (by rw [h17]; decide)
  by_cases h18 : c = 'R'
  · exact Or.inr (by rw [h18]; decide)
  by_cases h19 : c = 'S'
  · exact Or.inr (by rw [h19]; decide)
  by_cases h20 : c = 'T'
  · exact Or.inr (by rw [h20]; decide)
  by_cases h21 : c = 'U'
  · exact Or.inr (by rw [h21]; decide)
  by_cases h22 : c = 'V'
  · exact Or.inr (by rw [h22]; decide)
  by_cases h23 : c = 'W'
  · exact Or.inr (by rw [h23]; decide)
  by_cases h24 : c = 'X'
  · exact Or.inr (by rw [h24]; decide)
  by_cases h25 : c = 'Y'
  · exact Or.inr (by rw [h25]; decide)
  by_cases h26 : c = 'Z'
  · exact Or.inr (by rw [h26]; decide)
  refine Or.inl ?_
  unfold lowerChar
  rw [if_neg h1, if_neg h2, if_neg h3, if_neg h4, if_neg h5, if_neg h6, if_neg h7, if_neg h8, if_neg h9, if_neg h10, if_neg h11, if_neg h12, if_neg h13, if_neg h14, if_neg h15, if_neg h16, if_neg h17, if_neg h18, if_neg h19, if_neg h20, if_neg h21, if_neg h22, if_neg h23, if_neg h24, if_neg h25, if_neg h26]

theorem lowerChar_idem (c : Char) : lowerChar (lowerChar c) = lowerChar c := by
  rcases lowerChar_cases c with h | h
  · rw [h]
    exact h
  · have hall : ∀ x ∈ ['a','b','c','d','e','f','g','h','i','j','k','l','m',
        'n','o','p','q','r','s','t','u','v','w','x','y','z'], lowerChar x = x := by
      decide
    rw [hall _ h]

theorem isSchemeChar_lowerChar {c : Char} (h : isSchemeChar c = true) :
    isSchemeChar (lowerChar c) = true := by
  rcases lowerChar_cases c with h' | h'
  · rw [h']
    exact h
  · have hall : ∀ x ∈ ['a','b','c','d','e','f','g','h','i','j','k','l','m',
        'n','o','p','q','r','s','t','u','v','w','x','y','z'],
        isSchemeChar x = true := by decide
    exact hall _ h'

theorem isAsciiAlpha_lowerChar {c : Char} (h : isAsciiAlpha c = true) :
    isAsciiAlpha (lowerChar c) = true := by
  rcases lowerChar_cases c with h' | h'
  · rw [h']
    exact h
  · have hall : ∀ x ∈ ['a','b','c','d','e','f','g','h','i','j','k','l','m',
        'n','o','p','q','r','s','t','u','v','w','x','y','z'],
        isAsciiAlpha x = true := by decide
    exact hall _ h'

theorem lowerStr_idem (s : List Char) : lowerStr (lowerStr s) = lowerStr s := by
  simp only [lowerStr, List.map_map]
  exact List.map_congr_left (fun c _ => lowerChar_idem c)

theorem schemeChar_ne {c : Char} (h : isSchemeChar c = true) :
    c ≠ ':' ∧ c ≠ '/' ∧ c ≠ '?' ∧ c ≠ '#' := by
  refine ⟨?_, ?_, ?_, ?_⟩ <;> rintro rfl <;>
    simp [isSchemeChar, isAsciiAlpha] at h

theorem alpha_not_le32 {c : Char} (h : isAsciiAlpha c = true) :
    ¬(c.toNat ≤ 32) := by
  simp only [isAsciiAlpha, Bool.or_eq_true, Bool.and_eq_true,
    decide_eq_true_eq] at h
  rcases h with ⟨h1, _⟩ | ⟨h1, _⟩ <;>
    · have h4 : (65 : Nat) ≤ c.val.toNat ∨ (97 : Nat) ≤ c.val.toNat := by
        first
          | exact Or.inl (Char.le_def.mp h1)
          | exact Or.inr (Char.le_def.mp h1)
      simp only [Char.toNat]
      omega

theorem lowerChar_notBad {c : Char}
    (h : ¬(c = '\t' ∨ c = '\r' ∨ c = '\n')) :
    ¬(lowerChar c = '\t' ∨ lowerChar c = '\r' ∨ lowerChar c = '\n') := by
  rcases lowerChar_cases c with h' | h'
  · rw [h']
    exact h
  · have hall : ∀ x ∈ ['a','b','c','d','e','f','g','h','i','j','k','l','m',
        'n','o','p','q','r','s','t','u','v','w','x','y','z'],
        ¬(x = '\t' ∨ x = '\r' ∨ x = '\n') := by decide
    exact hall _ h'

theorem splitOnFirst_none_of_not_mem {c : Char} {l : List Char} (h : c ∉ l) :
    splitOnFirst c l = none := by
  induction l with
  | nil => rfl
  | cons x xs ih =>
    unfold splitOnFirst
    rw [if_neg (fun hx => h (by rw [← hx]; exact List.mem_cons_self _ _))]
    rw [ih (fun hc => h (List.mem_cons_of_mem _ hc))]

theorem not_mem_of_splitOnFirst_none {c : Char} {l : List Char}
    (h : splitOnFirst c l = none) : c ∉ l := by
  induction l with
  | nil => simp
  | cons x xs ih =>
    unfold splitOnFirst at h
    by_cases hx : x = c
    · rw [if_pos hx] at h
      exact absurd h (by simp)
    · rw [if_neg hx] at h
      cases hr : splitOnFirst c xs with
      | some p =>
        obtain ⟨p1, p2⟩ := p
        rw [hr] at h
        exact absurd h (by simp)
      | none =>
        intro hmem
        rcases List.mem_cons.mp hmem with heq | hm
        · exact hx heq.symm
        · exact ih hr hm

theorem splitOnFirst_append {c : Char} {a : List Char} (b : List Char)
    (h : c ∉ a) : splitOnFirst c (a ++ c :: b) = some (a, b) := by
  induction a with
  | nil => simp [splitOnFirst]
  | cons x xs ih =>
    rw [List.cons_append]
    unfold splitOnFirst
    rw [if_neg (fun hx => h (by rw [← hx]; exact List.mem_cons_self _ _))]
    rw [ih (fun hc => h (List.mem_cons_of_mem _ hc))]

theorem splitOnFirst_parts {c : Char} {l a b : List Char}
    (h : splitOnFirst c l = some (a, b)) : l = a ++ c :: b ∧ c ∉ a := by
  induction l generalizing a b with
  | nil => simp [splitOnFirst] at h
  | cons x xs ih =>
    unfold splitOnFirst at h
    by_cases hx : x = c
    · rw [if_pos hx] at h
      rw [Option.some.injEq, Prod.mk.injEq] at h
      obtain ⟨rfl, rfl⟩ := h
      subst hx
      exact ⟨rfl, by simp⟩
    · rw [if_neg hx] at h
      cases hr : splitOnFirst c xs with
      | none =>
        rw [hr] at h
        exact absurd h (by simp)
      | some p =>
        obtain ⟨p1, p2⟩ := p
        rw [hr] at h
        rw [Option.some.injEq, Prod.mk.injEq] at h
        obtain ⟨h1, h2⟩ := h
        obtain ⟨hl, hna⟩ := ih hr
        subst h2
        rw [← h1]
        refine ⟨by rw [List.cons_append, ← hl], ?_⟩
        intro hc
        rcases List.mem_cons.mp hc with rfl | hc'
        · exact hx rfl
        · exact hna hc'

theorem breakAtAny_cons (stops : List Char) (x : Char) (xs : List Char) :
    breakAtAny stops (x :: xs) =
      if x ∈ stops then ([], x :: xs)
      else (x :: (breakAtAny stops xs).1, (breakAtAny stops xs).2) := rfl

theorem breakAtAny_recon (stops : List Char) (l : List Char) :
    (breakAtAny stops l).1 ++ (breakAtAny stops l).2 = l ∧
    (∀ x ∈ (breakAtAny stops l).1, x ∉ stops) ∧
    ((breakAtAny stops l).2 = [] ∨
      ∃ y t, (breakAtAny stops l).2 = y :: t ∧ y ∈ stops) := by
  induction l with
  | nil => simp [breakAtAny]
  | cons x xs ih =>
    rw [breakAtAny_cons]
    by_cases hx : x ∈ stops
    · rw [if_pos hx]
      exact ⟨rfl, by simp, Or.inr ⟨x, xs, rfl, hx⟩⟩
    · rw [if_neg hx]
      refine ⟨?_, ?_, ih.2.2⟩
      · simpa using ih.1
      · intro y hy
        rcases List.mem_cons.mp hy with rfl | hy'
        · exact hx
        · exact ih.2.1 y hy'

theorem breakAtAny_append_clean (stops : List Char) {a : List Char}
    (r : List Char) (h : ∀ x ∈ a, x ∉ stops) :
    breakAtAny stops (a ++ r) =
      (a ++ (breakAtAny stops r).1, (breakAtAny stops r).2) := by
  induction a with
  | nil => simp
  | cons x xs ih =>
    rw [List.cons_append, breakAtAny_cons]
    rw [if_neg (h x (List.mem_cons_self _ _))]
    rw [ih (fun y hy => h y (List.mem_cons_of_mem _ hy))]
    simp

theorem breakAtAny_append_stop (stops : List Char) {p : List Char}
    (r : List Char) (h : (breakAtAny stops p).2 ≠ []) :
    breakAtAny stops (p ++ r) =
      ((breakAtAny stops p).1, (breakAtAny stops p).2 ++ r) := by
  induction p with
  | nil => simp [breakAtAny] at h
  | cons x xs ih =>
    rw [breakAtAny_cons] at h
    rw [List.cons_append, breakAtAny_cons, breakAtAny_cons]
    by_cases hx : x ∈ stops
    · rw [if_pos hx] at h ⊢
      rw [if_pos hx]
      simp
    · rw [if_neg hx] at h ⊢
      rw [if_neg hx]
      rw [ih (by simpa using h)]

theorem not_mem_of_breakAtLast_none {c : Char} {l : List Char}
    (h : breakAtLast c l = none) : c ∉ l := by
  induction l with
  | nil => simp
  | cons x xs ih =>
    unfold breakAtLast at h
    cases hr : breakAtLast c xs with
    | some p =>
      obtain ⟨p1, p2⟩ := p
      rw [hr] at h
      exact absurd h (by simp)
    | none =>
      rw [hr] at h
      by_cases hx : x = c
      · rw [if_pos hx] at h
        exact absurd h (by simp)
      · rw [if_neg hx] at h
        intro hmem
        rcases List.mem_cons.mp hmem with heq | hm
        · exact hx heq.symm
        · exact ih hr hm

theorem breakAtLast_none_of_not_mem {c : Char} {l : List Char} (h : c ∉ l) :
    breakAtLast c l = none := by
  induction l with
  | nil => rfl
  | cons x xs ih =>
    unfold breakAtLast
    rw [ih (fun hc => h (List.mem_cons_of_mem _ hc))]
    rw [if_neg (fun hx => h (by rw [← hx]; exact List.mem_cons_self _ _))]

theorem breakAtLast_parts {c : Char} {l a b : List Char}
    (h : breakAtLast c l = some (a, b)) : l = a ++ c :: b ∧ c ∉ b := by
  induction l generalizing a b with
  | nil => simp [breakAtLast] at h
  | cons x xs ih =>
    unfold breakAtLast at h
    cases hr : breakAtLast c xs with
    | some p =>
      obtain ⟨p1, p2⟩ := p
      rw [hr] at h
      rw [Option.some.injEq, Prod.mk.injEq] at h
      obtain ⟨h1, h2⟩ := h
      obtain ⟨hl, hnb⟩ := ih hr
      subst h2
      rw [← h1]
      exact ⟨by rw [List.cons_append, ← hl], hnb⟩
    | none =>
      rw [hr] at h
      by_cases hx : x = c
      · rw [if_pos hx] at h
        rw [Option.some.injEq, Prod.mk.injEq] at h
        obtain ⟨rfl, rfl⟩ := h
        subst hx
        have hb := not_mem_of_breakAtLast_none hr
        exact ⟨rfl, hb⟩
      · rw [if_neg hx] at h
        exact absurd h (by simp)

theorem breakAtLast_append_left {c : Char} (t : List Char) {r a b : List Char}
    (h : breakAtLast c r = some (a, b)) :
    breakAtLast c (t ++ r) = some (t ++ a, b) := by
  induction t with
  | nil => simpa using h
  | cons x xs ih =>
    rw [List.cons_append]
    unfold breakAtLast
    rw [ih]
    simp

theorem breakAtLast_append_last {c : Char} (a : List Char) {b : List Char}
    (h : c ∉ b) : breakAtLast c (a ++ c :: b) = some (a, b) := by
  have hbase : breakAtLast c (c :: b) = some ([], b) := by
    unfold breakAtLast
    rw [breakAtLast_none_of_not_mem h, if_pos rfl]
  have := breakAtLast_append_left a hbase
  simpa using this

theorem breakAtLast_some_of_mem {c : Char} {l : List Char} (h : c ∈ l) :
    ∃ a b, breakAtLast c l = some (a, b) := by
  cases hr : breakAtLast c l with
  | none => exact absurd h (not_mem_of_breakAtLast_none hr)
  | some p =>
    obtain ⟨p1, p2⟩ := p
    exact ⟨p1, p2, rfl⟩
theorem schemeChar_notBad {c : Char} (h : isSchemeChar c = true) :
    ¬(c = '\t' ∨ c = '\r' ∨ c = '\n') := by
  rintro (rfl | rfl | rfl) <;> simp [isSchemeChar, isAsciiAlpha] at h

theorem cleanUrl_mem_notBad {u : List Char} {c : Char} (h : c ∈ cleanUrl u) :
    ¬(c = '\t' ∨ c = '\r' ∨ c = '\n') := by
  unfold cleanUrl at h
  have h2 := (List.mem_filter.mp h).2
  intro hb
  rcases hb with rfl | rfl | rfl <;> simp at h2

theorem cleanUrl_eq_self {l : List Char}
    (hbad : ∀ c ∈ l, ¬(c = '\t' ∨ c = '\r' ∨ c = '\n'))
    (hhead : ∀ c t, l = c :: t → ¬(c.toNat ≤ 32)) :
    cleanUrl l = l := by
  unfold cleanUrl
  have hdw : l.dropWhile (fun c => decide (c.toNat ≤ 32)) = l := by
    cases l with
    | nil => rfl
    | cons c t =>
      rw [List.dropWhile_cons]
      rw [if_neg (by simpa using hhead c t rfl)]
  rw [hdw]
  apply List.filter_eq_self.mpr
  intro a ha
  have hb := hbad a ha
  simp only [not_or] at hb
  simp [hb.1, hb.2.1, hb.2.2]

theorem splitParams_lastseg (p : List Char) :
    ('/' ∈ (splitParams p).1 →
      ∀ a b, breakAtLast '/' (splitParams p).1 = some (a, b) → ';' ∉ b) ∧
    ('/' ∉ (splitParams p).1 → ';' ∉ (splitParams p).1) := by
  by_cases hs : '/' ∈ p
  · obtain ⟨α, β, hbl⟩ := breakAtLast_some_of_mem hs
    obtain ⟨hpeq, hnb⟩ := breakAtLast_parts hbl
    cases hsf : splitOnFirst ';' β with
    | some pr =>
      obtain ⟨b1, b2⟩ := pr
      obtain ⟨hβeq, hnsemi⟩ := splitOnFirst_parts hsf
      have hslash1 : '/' ∉ b1 :=
        fun hc => hnb (by rw [hβeq]; exact List.mem_append_left _ hc)
      have hsp : splitParams p = (α ++ '/' :: b1, b2) := by
        unfold splitParams
        rw [if_pos hs]
        simp only [hbl, hsf]
      rw [hsp]
      constructor
      · intro _ a b hab
        rw [breakAtLast_append_last α hslash1] at hab
        rw [Option.some.injEq, Prod.mk.injEq] at hab
        rw [← hab.2]
        exact hnsemi
      · intro hno
        exact absurd (by simp) hno
    | none =>
      have hnsemi := not_mem_of_splitOnFirst_none hsf
      have hsp : splitParams p = (p, []) := by
        unfold splitParams
        rw [if_pos hs]
        simp only [hbl, hsf]
      rw [hsp]
      constructor
      · intro _ a b hab
        rw [hbl] at hab
        rw [Option.some.injEq, Prod.mk.injEq] at hab
        rw [← hab.2]
        exact hnsemi
      · intro hno
        exact absurd hs hno
  · cases hsf : splitOnFirst ';' p with
    | some pr =>
      obtain ⟨p1, p2⟩ := pr
      obtain ⟨hpeq, hnsemi⟩ := splitOnFirst_parts hsf
      have hsp : splitParams p = (p1, p2) := by
        unfold splitParams
        rw [if_neg hs]
        simp only [hsf]
      rw [hsp]
      exact ⟨fun hsl => absurd (by rw [hpeq]; exact List.mem_append_left _ hsl) hs,
        fun _ => hnsemi⟩
    | none =>
      have hsp : splitParams p = (p, []) := by
        unfold splitParams
        rw [if_neg hs]
        simp only [hsf]
      rw [hsp]
      exact ⟨fun hsl => absurd hsl hs,
        fun _ => not_mem_of_splitOnFirst_none hsf⟩

theorem splitParams_fst_subset (p : List Char) :
    ∀ c ∈ (splitParams p).1, c ∈ p := by
  by_cases hs : '/' ∈ p
  · obtain ⟨α, β, hbl⟩ := breakAtLast_some_of_mem hs
    obtain ⟨hpeq, hnb⟩ := breakAtLast_parts hbl
    cases hsf : splitOnFirst ';' β with
    | some pr =>
      obtain ⟨b1, b2⟩ := pr
      obtain ⟨hβeq, _⟩ := splitOnFirst_parts hsf
      have hsp : splitParams p = (α ++ '/' :: b1, b2) := by
        unfold splitParams
        rw [if_pos hs]
        simp only [hbl, hsf]
      rw [hsp]
      intro c hc
      rw [hpeq]
      rcases List.mem_append.mp hc with hc | hc
      · exact List.mem_append_left _ hc
      · rcases List.mem_cons.mp hc with rfl | hc
        · exact List.mem_append_right _ (List.mem_cons_self _ _)
        · refine List.mem_append_right _ (List.mem_cons_of_mem _ ?_)
          rw [hβeq]
          exact List.mem_append_left _ hc
    | none =>
      have hsp : splitParams p = (p, []) := by
        unfold splitParams
        rw [if_pos hs]
        simp only [hbl, hsf]
      rw [hsp]
      exact fun c hc => hc
  · cases hsf : splitOnFirst ';' p with
    | some pr =>
      obtain ⟨p1, p2⟩ := pr
      obtain ⟨hpeq, _⟩ := splitOnFirst_parts hsf
      have hsp : splitParams p = (p1, p2) := by
        unfold splitParams
        rw [if_neg hs]
        simp only [hsf]
      rw [hsp]
      intro c hc
      rw [hpeq]
      exact List.mem_append_left _ hc
    | none =>
      have hsp : splitParams p = (p, []) := by
        unfold splitParams
        rw [if_neg hs]
        simp only [hsf]
      rw [hsp]
      exact fun c hc => hc


theorem lastseg_suffix {p n2 pa : List Char} (hsplit : p = n2 ++ pa)
    (h1 : '/' ∈ p → ∀ a b, breakAtLast '/' p = some (a, b) → ';' ∉ b)
    (h2 : '/' ∉ p → ';' ∉ p) :
    ('/' ∈ pa → ∀ a b, breakAtLast '/' pa = some (a, b) → ';' ∉ b) ∧
    ('/' ∉ pa → ';' ∉ pa) := by
  constructor
  · intro hmem a b hab
    obtain ⟨hpaeq, hnb⟩ := breakAtLast_parts hab
    have hp : breakAtLast '/' p = some (n2 ++ a, b) := by
      rw [hsplit, hpaeq, ← List.append_assoc]
      exact breakAtLast_append_last _ hnb
    exact h1 (by rw [hsplit]; exact List.mem_append_right _ hmem) _ _ hp
  · intro hno
    by_cases hp : '/' ∈ p
    · obtain ⟨α, β, hbl⟩ := breakAtLast_some_of_mem hp
      obtain ⟨hpeq, hnb⟩ := breakAtLast_parts hbl
      have hsemi : ';' ∉ β := h1 hp α β hbl
      have hkey : n2 ++ pa = α ++ '/' :: β := by rw [← hsplit, hpeq]
      rcases List.append_eq_append_iff.mp hkey with ⟨a2, ha2, hb2⟩ | ⟨c2, hc2, hd2⟩
      · exact absurd (by
          rw [hb2]
          exact List.mem_append_right _ (List.mem_cons_self _ _)) hno
      · cases c2 with
        | nil =>
          rw [List.nil_append] at hd2
          exact absurd (by rw [← hd2]; exact List.mem_cons_self _ _) hno
        | cons x xs =>
          rw [List.cons_append] at hd2
          have hβ : β = xs ++ pa := by
            have := hd2
            injection this
          intro hc
          exact hsemi (by rw [hβ]; exact List.mem_append_right _ hc)
    · intro hc
      exact h2 hp (by rw [hsplit]; exact List.mem_append_right _ hc)
theorem urlsplitFactsOf {u S N P Q F : List Char}
    (heq : pyUrlsplit u [] = ⟨S, N, P, Q, F⟩)
    (hs0 : ∃ c0 t, S = c0 :: t ∧ isAsciiAlpha c0 = true)
    (hs1 : ∀ c ∈ S, isSchemeChar c = true)
    (hs3 : lowerStr S = S)
    (hnb : ∀ c ∈ N, ¬(c = '\t' ∨ c = '\r' ∨ c = '\n'))
    (hnstop : ∀ c ∈ N, c ∉ (['/', '?', '#'] : List Char))
    (hpb : ∀ c ∈ P, ¬(c = '\t' ∨ c = '\r' ∨ c = '\n'))
    (hqb : ∀ c ∈ Q, ¬(c = '\t' ∨ c = '\r' ∨ c = '\n'))
    (hpq : '?' ∉ P) (hph : '#' ∉ P) (hqh : '#' ∉ Q) :
    (∃ c0 t, (pyUrlsplit u []).scheme = c0 :: t ∧ isAsciiAlpha c0 = true) ∧
    (∀ c ∈ (pyUrlsplit u []).scheme, isSchemeChar c = true) ∧
    lowerStr (pyUrlsplit u []).scheme = (pyUrlsplit u []).scheme ∧
    (∀ c ∈ (pyUrlsplit u []).netloc, ¬(c = '\t' ∨ c = '\r' ∨ c = '\n')) ∧
    (∀ c ∈ (pyUrlsplit u []).netloc, c ∉ (['/', '?', '#'] : List Char)) ∧
    (∀ c ∈ (pyUrlsplit u []).path, ¬(c = '\t' ∨ c = '\r' ∨ c = '\n')) ∧
    (∀ c ∈ (pyUrlsplit u []).query, ¬(c = '\t' ∨ c = '\r' ∨ c = '\n')) ∧
    '?' ∉ (pyUrlsplit u []).path ∧
    '#' ∉ (pyUrlsplit u []).path ∧
    '#' ∉ (pyUrlsplit u []).query := by
  rw [heq]
  exact ⟨hs0, hs1, hs3, hnb, hnstop, hpb, hqb, hpq, hph, hqh⟩

theorem urlsplit_facts (u : List Char) (h : (pyUrlsplit u []).scheme ≠ []) :
    (∃ c0 t, (pyUrlsplit u []).scheme = c0 :: t ∧ isAsciiAlpha c0 = true) ∧
    (∀ c ∈ (pyUrlsplit u []).scheme, isSchemeChar c = true) ∧
    lowerStr (pyUrlsplit u []).scheme = (pyUrlsplit u []).scheme ∧
    (∀ c ∈ (pyUrlsplit u []).netloc, ¬(c = '\t' ∨ c = '\r' ∨ c = '\n')) ∧
    (∀ c ∈ (pyUrlsplit u []).netloc, c ∉ (['/', '?', '#'] : List Char)) ∧
    (∀ c ∈ (pyUrlsplit u []).path, ¬(c = '\t' ∨ c = '\r' ∨ c = '\n')) ∧
    (∀ c ∈ (pyUrlsplit u []).query, ¬(c = '\t' ∨ c = '\r' ∨ c = '\n')) ∧
    '?' ∉ (pyUrlsplit u []).path ∧
    '#' ∉ (pyUrlsplit u []).path ∧
    '#' ∉ (pyUrlsplit u []).query := by
  cases hsp : splitOnFirst ':' (cleanUrl u) with
  | none => exact absurd (by simp [pyUrlsplit, hsp]) h
  | some spr =>
    obtain ⟨pre, post⟩ := spr
    cases pre with
    | nil => exact absurd (by simp [pyUrlsplit, hsp]) h
    | cons p0 pre2 =>
      by_cases hguard : (isAsciiAlpha p0 && (p0 :: pre2).all isSchemeChar) = true
      case neg =>
        have hcond : ¬(isAsciiAlpha p0 = true ∧ isSchemeChar p0 = true ∧
            ∀ x ∈ pre2, isSchemeChar x = true) := by
          rintro ⟨h1, h2, h3⟩
          apply hguard
          rw [Bool.and_eq_true]
          refine ⟨h1, ?_⟩
          rw [List.all_eq_true]
          intro c hc
          rcases List.mem_cons.mp hc with rfl | hc
          · exact h2
          · exact h3 c hc
        exact absurd (by simp [pyUrlsplit, hsp, hcond]) h
      case pos =>
      obtain ⟨hurl, hnc⟩ := splitOnFirst_parts hsp
      have hmempost : ∀ c ∈ post, c ∈ cleanUrl u := fun c hc => by
        rw [hurl]
        exact List.mem_append_right _ (List.mem_cons_of_mem _ hc)
      have hguard2 := hguard
      rw [Bool.and_eq_true] at hguard2
      have hall : ∀ c ∈ p0 :: pre2, isSchemeChar c = true := by
        have h2 := hguard2.2
        rw [List.all_eq_true] at h2
        exact fun c hc => h2 c hc
      have hs0 : ∃ c0 t, lowerStr (p0 :: pre2) = c0 :: t ∧ isAsciiAlpha c0 = true :=
        ⟨lowerChar p0, lowerStr pre2, rfl, isAsciiAlpha_lowerChar hguard2.1⟩
      have hs1 : ∀ c ∈ lowerStr (p0 :: pre2), isSchemeChar c = true := by
        intro c hc
        obtain ⟨c0, hc0, rfl⟩ := List.mem_map.mp hc
        exact isSchemeChar_lowerChar (hall c0 hc0)
      have hs3 := lowerStr_idem (p0 :: pre2)
      by_cases hnl : List.take 2 post = ['/', '/']
      case pos =>
        have hrec := breakAtAny_recon ['/', '?', '#'] (List.drop 2 post)
        have hmem1 : ∀ c ∈ (breakAtAny ['/', '?', '#'] (List.drop 2 post)).1, c ∈ cleanUrl u := by
          intro c hc
          exact hmempost c (List.drop_subset _ _
            (by rw [← hrec.1]; exact List.mem_append_left _ hc))
        have hmem2 : ∀ c ∈ (breakAtAny ['/', '?', '#'] (List.drop 2 post)).2, c ∈ cleanUrl u := by
          intro c hc
          exact hmempost c (List.drop_subset _ _
            (by rw [← hrec.1]; exact List.mem_append_right _ hc))
        have hnbN : ∀ c ∈ (breakAtAny ['/', '?', '#'] (List.drop 2 post)).1, ¬(c = '\t' ∨ c = '\r' ∨ c = '\n') :=
          fun c hc => cleanUrl_mem_notBad (hmem1 c hc)
        cases hfp : splitOnFirst '#' (breakAtAny ['/', '?', '#'] (List.drop 2 post)).2 with
        | some fpr =>
          obtain ⟨f1, f2⟩ := fpr
          obtain ⟨hr2eq, hf1hash⟩ := splitOnFirst_parts hfp
          have hf1mem : ∀ c ∈ f1, c ∈ cleanUrl u := fun c hc =>
            hmem2 c (by rw [hr2eq]; exact List.mem_append_left _ hc)
          cases hqp : splitOnFirst '?' f1 with
          | some qpr =>
            obtain ⟨q1, q2⟩ := qpr
            obtain ⟨hf1eq, hq1q⟩ := splitOnFirst_parts hqp
            have heq : pyUrlsplit u [] = ⟨lowerStr (p0 :: pre2), (breakAtAny ['/', '?', '#'] (List.drop 2 post)).1, q1, q2, f2⟩ := by
              unfold pyUrlsplit
              simp only [hsp, hguard, if_true, hnl, eq_self_iff_true, hfp, hqp]
            refine urlsplitFactsOf heq hs0 hs1 hs3 hnbN hrec.2.1 ?_ ?_ ?_ ?_ ?_
            · exact fun c hc => cleanUrl_mem_notBad
                (hf1mem c (by rw [hf1eq]; exact List.mem_append_left _ hc))
            · exact fun c hc => cleanUrl_mem_notBad (hf1mem c
                (by rw [hf1eq]; exact List.mem_append_right _ (List.mem_cons_of_mem _ hc)))
            · exact hq1q
            · exact fun hc => hf1hash (by rw [hf1eq]; exact List.mem_append_left _ hc)
            · exact fun hc => hf1hash
                (by rw [hf1eq]; exact List.mem_append_right _ (List.mem_cons_of_mem _ hc))
          | none =>
            have hq := not_mem_of_splitOnFirst_none hqp
            have heq : pyUrlsplit u [] = ⟨lowerStr (p0 :: pre2), (breakAtAny ['/', '?', '#'] (List.drop 2 post)).1, f1, [], f2⟩ := by
              unfold pyUrlsplit
              simp only [hsp, hguard, if_true, hnl, eq_self_iff_true, hfp, hqp]
            refine urlsplitFactsOf heq hs0 hs1 hs3 hnbN hrec.2.1 ?_ ?_ ?_ ?_ ?_
            · exact fun c hc => cleanUrl_mem_notBad (hf1mem c hc)
            · exact fun c hc => absurd hc (List.not_mem_nil c)
            · exact hq
            · exact hf1hash
            · exact fun hc => absurd hc (List.not_mem_nil _)
        | none =>
          have hrh := not_mem_of_splitOnFirst_none hfp
          cases hqp : splitOnFirst '?' (breakAtAny ['/', '?', '#'] (List.drop 2 post)).2 with
          | some qpr =>
            obtain ⟨q1, q2⟩ := qpr
            obtain ⟨hf1eq, hq1q⟩ := splitOnFirst_parts hqp
            have heq : pyUrlsplit u [] = ⟨lowerStr (p0 :: pre2), (breakAtAny ['/', '?', '#'] (List.drop 2 post)).1, q1, q2, []⟩ := by
              unfold pyUrlsplit
              simp only [hsp, hguard, if_true, hnl, eq_self_iff_true, hfp, hqp]
            refine urlsplitFactsOf heq hs0 hs1 hs3 hnbN hrec.2.1 ?_ ?_ ?_ ?_ ?_
            · exact fun c hc => cleanUrl_mem_notBad
                (hmem2 c (by rw [hf1eq]; exact List.mem_append_left _ hc))
            · exact fun c hc => cleanUrl_mem_notBad (hmem2 c
                (by rw [hf1eq]; exact List.mem_append_right _ (List.mem_cons_of_mem _ hc)))
            · exact hq1q
            · exact fun hc => hrh (by rw [hf1eq]; exact List.mem_append_left _ hc)
            · exact fun hc => hrh
                (by rw [hf1eq]; exact List.mem_append_right _ (List.mem_cons_of_mem _ hc))
          | none =>
            have hq := not_mem_of_splitOnFirst_none hqp
            have heq : pyUrlsplit u [] = ⟨lowerStr (p0 :: pre2), (breakAtAny ['/', '?', '#'] (List.drop 2 post)).1, (breakAtAny ['/', '?', '#'] (List.drop 2 post)).2, [], []⟩ := by
              unfold pyUrlsplit
              simp only [hsp, hguard, if_true, hnl, eq_self_iff_true, hfp, hqp]
            refine urlsplitFactsOf heq hs0 hs1 hs3 hnbN hrec.2.1 ?_ ?_ ?_ ?_ ?_
            · exact fun c hc => cleanUrl_mem_notBad (hmem2 c hc)
            · exact fun c hc => absurd hc (List.not_mem_nil c)
            · exact hq
            · exact hrh
            · exact fun hc => absurd hc (List.not_mem_nil _)
      case neg =>
        have hnbN : ∀ c ∈ ([] : List Char), ¬(c = '\t' ∨ c = '\r' ∨ c = '\n') :=
          fun c hc => absurd hc (List.not_mem_nil c)
        have hnstopN : ∀ c ∈ ([] : List Char), c ∉ (['/', '?', '#'] : List Char) :=
          fun c hc => absurd hc (List.not_mem_nil c)
        cases hfp : splitOnFirst '#' post with
        | some fpr =>
          obtain ⟨f1, f2⟩ := fpr
          obtain ⟨hr2eq, hf1hash⟩ := splitOnFirst_parts hfp
          have hf1mem : ∀ c ∈ f1, c ∈ cleanUrl u := fun c hc =>
            hmempost c (by rw [hr2eq]; exact List.mem_append_left _ hc)
          cases hqp : splitOnFirst '?' f1 with
          | some qpr =>
            obtain ⟨q1, q2⟩ := qpr
            obtain ⟨hf1eq, hq1q⟩ := splitOnFirst_parts hqp
            have heq : pyUrlsplit u [] = ⟨lowerStr (p0 :: pre2), [], q1, q2, f2⟩ := by
              unfold pyUrlsplit
              simp only [hsp, hguard, if_true, if_neg hnl, hfp, hqp]
            refine urlsplitFactsOf heq hs0 hs1 hs3 hnbN hnstopN ?_ ?_ ?_ ?_ ?_
            · exact fun c hc => cleanUrl_mem_notBad
                (hf1mem c (by rw [hf1eq]; exact List.mem_append_left _ hc))
            · exact fun c hc => cleanUrl_mem_notBad (hf1mem c
                (by rw [hf1eq]; exact List.mem_append_right _ (List.mem_cons_of_mem _ hc)))
            · exact hq1q
            · exact fun hc => hf1hash (by rw [hf1eq]; exact List.mem_append_left _ hc)
            · exact fun hc => hf1hash
                (by rw [hf1eq]; exact List.mem_append_right _ (List.mem_cons_of_mem _ hc))
          | none =>
            have hq := not_mem_of_splitOnFirst_none hqp
            have heq : pyUrlsplit u [] = ⟨lowerStr (p0 :: pre2), [], f1, [], f2⟩ := by
              unfold pyUrlsplit
              simp only [hsp, hguard, if_true, if_neg hnl, hfp, hqp]
            refine urlsplitFactsOf heq hs0 hs1 hs3 hnbN hnstopN ?_ ?_ ?_ ?_ ?_
            · exact fun c hc => cleanUrl_mem_notBad (hf1mem c hc)
            · exact fun c hc => absurd hc (List.not_mem_nil c)
            · exact hq
            · exact hf1hash
            · exact fun hc => absurd hc (List.not_mem_nil _)
        | none =>
          have hrh := not_mem_of_splitOnFirst_none hfp
          cases hqp : splitOnFirst '?' post with
          | some qpr =>
            obtain ⟨q1, q2⟩ := qpr
            obtain ⟨hf1eq, hq1q⟩ := splitOnFirst_parts hqp
            have heq : pyUrlsplit u [] = ⟨lowerStr (p0 :: pre2), [], q1, q2, []⟩ := by
              unfold pyUrlsplit
              simp only [hsp, hguard, if_true, if_neg hnl, hfp, hqp]
            refine urlsplitFactsOf heq hs0 hs1 hs3 hnbN hnstopN ?_ ?_ ?_ ?_ ?_
            · exact fun c hc => cleanUrl_mem_notBad
                (hmempost c (by rw [hf1eq]; exact List.mem_append_left _ hc))
            · exact fun c hc => cleanUrl_mem_notBad (hmempost c
                (by rw [hf1eq]; exact List.mem_append_right _ (List.mem_cons_of_mem _ hc)))
            · exact hq1q
            · exact fun hc => hrh (by rw [hf1eq]; exact List.mem_append_left _ hc)
            · exact fun hc => hrh
                (by rw [hf1eq]; exact List.mem_append_right _ (List.mem_cons_of_mem _ hc))
          | none =>
            have hq := not_mem_of_splitOnFirst_none hqp
            have heq : pyUrlsplit u [] = ⟨lowerStr (p0 :: pre2), [], post, [], []⟩ := by
              unfold pyUrlsplit
              simp only [hsp, hguard, if_true, if_neg hnl, hfp, hqp]
            refine urlsplitFactsOf heq hs0 hs1 hs3 hnbN hnstopN ?_ ?_ ?_ ?_ ?_
            · exact fun c hc => cleanUrl_mem_notBad (hmempost c hc)
            · exact fun c hc => absurd hc (List.not_mem_nil c)
            · exact hq
            · exact hrh
            · exact fun hc => absurd hc (List.not_mem_nil _)
theorem pyUrlparse_eq (u d : List Char) :
    (¬((pyUrlsplit u d).scheme.asString ∈ usesParams ∧
        ';' ∈ (pyUrlsplit u d).path) ∧
      pyUrlparse u d = ⟨(pyUrlsplit u d).scheme, (pyUrlsplit u d).netloc,
        (pyUrlsplit u d).path, [], (pyUrlsplit u d).query,
        (pyUrlsplit u d).fragment⟩) ∨
    (((pyUrlsplit u d).scheme.asString ∈ usesParams ∧
        ';' ∈ (pyUrlsplit u d).path) ∧
      pyUrlparse u d = ⟨(pyUrlsplit u d).scheme, (pyUrlsplit u d).netloc,
        (splitParams (pyUrlsplit u d).path).1,
        (splitParams (pyUrlsplit u d).path).2,
        (pyUrlsplit u d).query, (pyUrlsplit u d).fragment⟩) := by
  by_cases hc : (pyUrlsplit u d).scheme.asString ∈ usesParams ∧
      ';' ∈ (pyUrlsplit u d).path
  · refine Or.inr ⟨hc, ?_⟩
    simp only [pyUrlparse]
    rw [if_pos hc]
  · refine Or.inl ⟨hc, ?_⟩
    simp only [pyUrlparse]
    rw [if_neg hc]

theorem urlparse_facts (u : List Char) (h : (pyUrlparse u []).scheme ≠ []) :
    (∃ c0 t, (pyUrlparse u []).scheme = c0 :: t ∧ isAsciiAlpha c0 = true) ∧
    (∀ c ∈ (pyUrlparse u []).scheme, isSchemeChar c = true) ∧
    lowerStr (pyUrlparse u []).scheme = (pyUrlparse u []).scheme ∧
    (∀ c ∈ (pyUrlparse u []).netloc, ¬(c = '\t' ∨ c = '\r' ∨ c = '\n')) ∧
    (∀ c ∈ (pyUrlparse u []).netloc, c ∉ (['/', '?', '#'] : List Char)) ∧
    (∀ c ∈ (pyUrlparse u []).path, ¬(c = '\t' ∨ c = '\r' ∨ c = '\n')) ∧
    (∀ c ∈ (pyUrlparse u []).query, ¬(c = '\t' ∨ c = '\r' ∨ c = '\n')) ∧
    '?' ∉ (pyUrlparse u []).path ∧
    '#' ∉ (pyUrlparse u []).path ∧
    '#' ∉ (pyUrlparse u []).query ∧
    ((pyUrlparse u []).scheme.asString ∈ usesParams →
      ('/' ∈ (pyUrlparse u []).path →
        ∀ a b, breakAtLast '/' (pyUrlparse u []).path = some (a, b) →
          ';' ∉ b) ∧
      ('/' ∉ (pyUrlparse u []).path → ';' ∉ (pyUrlparse u []).path)) := by
  rcases pyUrlparse_eq u [] with ⟨hc, heq⟩ | ⟨hc, heq⟩
  · have hsch : (pyUrlparse u []).scheme = (pyUrlsplit u []).scheme := by rw [heq]
    obtain ⟨f1, f2, f3, f4, f5, f6, f7, f8, f9, f10⟩ :=
      urlsplit_facts u (by rw [← hsch]; exact h)
    rw [heq]
    dsimp only
    refine ⟨f1, f2, f3, f4, f5, f6, f7, f8, f9, f10, ?_⟩
    intro hmem
    have hnos : ';' ∉ (pyUrlsplit u []).path := fun hsemi => hc ⟨hmem, hsemi⟩
    constructor
    · intro _ a b hab hcs
      obtain ⟨hpeq2, _⟩ := breakAtLast_parts hab
      exact hnos (by
        rw [hpeq2]
        exact List.mem_append_right _ (List.mem_cons_of_mem _ hcs))
    · intro _
      exact hnos
  · have hsch : (pyUrlparse u []).scheme = (pyUrlsplit u []).scheme := by rw [heq]
    obtain ⟨f1, f2, f3, f4, f5, f6, f7, f8, f9, f10⟩ :=
      urlsplit_facts u (by rw [← hsch]; exact h)
    have hsub := splitParams_fst_subset (pyUrlsplit u []).path
    rw [heq]
    dsimp only
    refine ⟨f1, f2, f3, f4, f5, ?_, f7, ?_, ?_, f10, ?_⟩
    · exact fun c hc2 => f6 c (hsub c hc2)
    · exact fun hc2 => f8 (hsub _ hc2)
    · exact fun hc2 => f9 (hsub _ hc2)
    · intro _
      exact splitParams_lastseg (pyUrlsplit u []).path

theorem built_notBad {s n rest : List Char}
    (hs1 : ∀ c ∈ s, isSchemeChar c = true)
    (hbn : ∀ c ∈ n, ¬(c = '\t' ∨ c = '\r' ∨ c = '\n'))
    (hbr : ∀ c ∈ rest, ¬(c = '\t' ∨ c = '\r' ∨ c = '\n')) :
    ∀ c ∈ s ++ ':' :: '/' :: '/' :: (n ++ rest),
      ¬(c = '\t' ∨ c = '\r' ∨ c = '\n') := by
  intro c hc
  rcases List.mem_append.mp hc with hcs | hcx
  · exact schemeChar_notBad (hs1 c hcs)
  · rcases List.mem_cons.mp hcx with rfl | hcx
    · decide
    rcases List.mem_cons.mp hcx with rfl | hcx
    · decide
    rcases List.mem_cons.mp hcx with rfl | hcx
    · decide
    rcases List.mem_append.mp hcx with hcn | hcr
    · exact hbn c hcn
    · exact hbr c hcr

theorem built_head {n rest : List Char} {c0 : Char} (t : List Char)
    (halpha : isAsciiAlpha c0 = true) :
    ∀ c t2, (c0 :: t) ++ ':' :: '/' :: '/' :: (n ++ rest) = c :: t2 →
      ¬(c.toNat ≤ 32) := by
  intro c t2 hct
  rw [List.cons_append] at hct
  injection hct with h1 _
  rw [← h1]
  exact alpha_not_le32 halpha
theorem urlsplit_rebuild (s n p q : List Char)
    (hs0 : ∃ c0 t, s = c0 :: t ∧ isAsciiAlpha c0 = true)
    (hs1 : ∀ c ∈ s, isSchemeChar c = true)
    (hs3 : lowerStr s = s)
    (hbn : ∀ c ∈ n, ¬(c = '\t' ∨ c = '\r' ∨ c = '\n'))
    (hbp : ∀ c ∈ p, ¬(c = '\t' ∨ c = '\r' ∨ c = '\n'))
    (hbq : ∀ c ∈ q, ¬(c = '\t' ∨ c = '\r' ∨ c = '\n'))
    (hn : ∀ c ∈ n, c ∉ (['/', '?', '#'] : List Char))
    (hp1 : '?' ∉ p) (hp2 : '#' ∉ p) (hq : '#' ∉ q) :
    ∃ n2 pa, p = n2 ++ pa ∧
      pyUrlsplit (s ++ ':' :: '/' :: '/' ::
        (n ++ (p ++ (if q ≠ [] then '?' :: q else [])))) [] =
        ⟨s, n ++ n2, pa, q, []⟩ := by
  obtain ⟨c0, t, rfl, halpha⟩ := hs0
  have hscol : ':' ∉ c0 :: t := fun hc => (schemeChar_ne (hs1 _ hc)).1 rfl
  have hguard : (isAsciiAlpha c0 && (c0 :: t).all isSchemeChar) = true := by
    rw [Bool.and_eq_true]
    refine ⟨halpha, ?_⟩
    rw [List.all_eq_true]
    exact fun c hc => hs1 c hc
  cases q with
  | nil =>
    rw [(by simp : (if ([] : List Char) ≠ [] then '?' :: ([] : List Char)
        else []) = []), List.append_nil]
    have hbadall := built_notBad hs1 hbn hbp
    have hclean : cleanUrl ((c0 :: t) ++ ':' :: '/' :: '/' :: (n ++ p)) =
        (c0 :: t) ++ ':' :: '/' :: '/' :: (n ++ p) :=
      cleanUrl_eq_self hbadall (built_head t halpha)
    have hsplit1 : splitOnFirst ':'
        ((c0 :: t) ++ ':' :: '/' :: '/' :: (n ++ p)) =
        some (c0 :: t, '/' :: '/' :: (n ++ p)) :=
      splitOnFirst_append _ hscol
    have hrec := breakAtAny_recon ['/', '?', '#'] p
    have hB := breakAtAny_append_clean ['/', '?', '#'] p hn
    have hfp2 : splitOnFirst '#' (breakAtAny ['/', '?', '#'] p).2 = none :=
      splitOnFirst_none_of_not_mem (fun hc => hp2
        (by rw [← hrec.1]; exact List.mem_append_right _ hc))
    have hqp2 : splitOnFirst '?' (breakAtAny ['/', '?', '#'] p).2 = none :=
      splitOnFirst_none_of_not_mem (fun hc => hp1
        (by rw [← hrec.1]; exact List.mem_append_right _ hc))
    refine ⟨(breakAtAny ['/', '?', '#'] p).1, (breakAtAny ['/', '?', '#'] p).2,
      hrec.1.symm, ?_⟩
    unfold pyUrlsplit
    have htake : List.take 2 ('/' :: '/' :: (n ++ p)) = ['/', '/'] := rfl
    have hdrop : List.drop 2 ('/' :: '/' :: (n ++ p)) = n ++ p := rfl
    simp only [hclean, hsplit1, hguard, if_true, eq_self_iff_true, hs3,
      htake, hdrop, hB, hfp2, hqp2]
  | cons qh qt =>
    rw [(by simp : (if (qh :: qt : List Char) ≠ [] then '?' :: qh :: qt
        else []) = '?' :: qh :: qt)]
    have hbtail : ∀ c ∈ p ++ '?' :: qh :: qt,
        ¬(c = '\t' ∨ c = '\r' ∨ c = '\n') := by
      intro c hc
      rcases List.mem_append.mp hc with hc | hc
      · exact hbp c hc
      rcases List.mem_cons.mp hc with rfl | hc
      · decide
      exact hbq c hc
    have hbadall := built_notBad hs1 hbn hbtail
    have hclean : cleanUrl ((c0 :: t) ++ ':' :: '/' :: '/' ::
        (n ++ (p ++ '?' :: qh :: qt))) =
        (c0 :: t) ++ ':' :: '/' :: '/' :: (n ++ (p ++ '?' :: qh :: qt)) :=
      cleanUrl_eq_self hbadall (built_head t halpha)
    have hsplit1 : splitOnFirst ':' ((c0 :: t) ++ ':' :: '/' :: '/' ::
        (n ++ (p ++ '?' :: qh :: qt))) =
        some (c0 :: t, '/' :: '/' :: (n ++ (p ++ '?' :: qh :: qt))) :=
      splitOnFirst_append _ hscol
    have hrec := breakAtAny_recon ['/', '?', '#'] (p ++ '?' :: qh :: qt)
    have hB := breakAtAny_append_clean ['/', '?', '#'] (p ++ '?' :: qh :: qt) hn
    have hdecomp : ∃ pa,
        p = (breakAtAny ['/', '?', '#'] (p ++ '?' :: qh :: qt)).1 ++ pa ∧
        (breakAtAny ['/', '?', '#'] (p ++ '?' :: qh :: qt)).2 =
          pa ++ '?' :: qh :: qt := by
      rcases List.append_eq_append_iff.mp hrec.1 with ⟨a2, ha2, hb2⟩ |
        ⟨c2, hc2, hd2⟩
      · exact ⟨a2, ha2, hb2⟩
      · cases c2 with
        | nil =>
          rw [List.append_nil] at hc2
          rw [List.nil_append] at hd2
          refine ⟨[], by rw [List.append_nil, hc2], ?_⟩
          rw [List.nil_append]
          exact hd2.symm
        | cons x xs =>
          exfalso
          rw [List.cons_append] at hd2
          have hx : x = '?' := by
            injection hd2 with h1 _
            exact h1.symm
          have : '?' ∈ (breakAtAny ['/', '?', '#'] (p ++ '?' :: qh :: qt)).1 := by
            rw [hc2, hx]
            exact List.mem_append_right _ (List.mem_cons_self _ _)
          exact hrec.2.1 '?' this (by decide)
    obtain ⟨pa, hpa, hr⟩ := hdecomp
    have hpaq : '?' ∉ pa := fun hc => hp1 (by
      rw [hpa]
      exact List.mem_append_right _ hc)
    have hfp2 : splitOnFirst '#'
        (breakAtAny ['/', '?', '#'] (p ++ '?' :: qh :: qt)).2 = none := by
      apply splitOnFirst_none_of_not_mem
      intro hc
      have hintail : '#' ∈ p ++ '?' :: qh :: qt := by
        rw [← hrec.1]
        exact List.mem_append_right _ hc
      rcases List.mem_append.mp hintail with hc2 | hc2
      · exact hp2 hc2
      rcases List.mem_cons.mp hc2 with heq2 | hc2
      · exact absurd heq2 (by decide)
      · exact hq hc2
    have hqp2 : splitOnFirst '?'
        (breakAtAny ['/', '?', '#'] (p ++ '?' :: qh :: qt)).2 =
        some (pa, qh :: qt) := by
      rw [hr]
      exact splitOnFirst_append _ hpaq
    refine ⟨(breakAtAny ['/', '?', '#'] (p ++ '?' :: qh :: qt)).1, pa, hpa, ?_⟩
    unfold pyUrlsplit
    have htake : List.take 2 ('/' :: '/' :: (n ++ (p ++ '?' :: qh :: qt))) =
      ['/', '/'] := rfl
    have hdrop : List.drop 2 ('/' :: '/' :: (n ++ (p ++ '?' :: qh :: qt))) =
      n ++ (p ++ '?' :: qh :: qt) := rfl
    simp only [hclean, hsplit1, hguard, if_true, eq_self_iff_true, hs3,
      htake, hdrop, hB, hfp2, hqp2]
theorem urlparse_rebuild (s n p q : List Char)
    (hs0 : ∃ c0 t, s = c0 :: t ∧ isAsciiAlpha c0 = true)
    (hs1 : ∀ c ∈ s, isSchemeChar c = true)
    (hs3 : lowerStr s = s)
    (hbn : ∀ c ∈ n, ¬(c = '\t' ∨ c = '\r' ∨ c = '\n'))
    (hbp : ∀ c ∈ p, ¬(c = '\t' ∨ c = '\r' ∨ c = '\n'))
    (hbq : ∀ c ∈ q, ¬(c = '\t' ∨ c = '\r' ∨ c = '\n'))
    (hn : ∀ c ∈ n, c ∉ (['/', '?', '#'] : List Char))
    (hp1 : '?' ∉ p) (hp2 : '#' ∉ p) (hq : '#' ∉ q)
    (hA : s.asString ∈ usesParams →
      ('/' ∈ p → ∀ a b, breakAtLast '/' p = some (a, b) → ';' ∉ b) ∧
      ('/' ∉ p → ';' ∉ p)) :
    ∃ n2 pa, p = n2 ++ pa ∧
      pyUrlparse (s ++ ':' :: '/' :: '/' ::
        (n ++ (p ++ (if q ≠ [] then '?' :: q else [])))) [] =
        ⟨s, n ++ n2, pa, [], q, []⟩ := by
  obtain ⟨n2, pa, hpa, hsplit⟩ :=
    urlsplit_rebuild s n p q hs0 hs1 hs3 hbn hbp hbq hn hp1 hp2 hq
  refine ⟨n2, pa, hpa, ?_⟩
  rcases pyUrlparse_eq (s ++ ':' :: '/' :: '/' ::
      (n ++ (p ++ (if q ≠ [] then '?' :: q else [])))) [] with
    ⟨hc, heq⟩ | ⟨hc, heq⟩
  · rw [heq, hsplit]
  · rw [hsplit] at hc
    have hcs : s.asString ∈ usesParams := hc.1
    have hcsemi : ';' ∈ pa := hc.2
    have hlast := lastseg_suffix hpa (hA hcs).1 (hA hcs).2
    have hsl : '/' ∈ pa := by
      by_contra hno
      exact (hlast.2 hno) hcsemi
    obtain ⟨α, β, hbl⟩ := breakAtLast_some_of_mem hsl
    have hnsemi : ';' ∉ β := hlast.1 hsl α β hbl
    have hsp2 : splitParams pa = (pa, []) := by
      unfold splitParams
      rw [if_pos hsl]
      simp only [hbl, splitOnFirst_none_of_not_mem hnsemi]
    rw [heq, hsplit]
    dsimp only
    rw [hsp2]
theorem asString_toList (l : List Char) : (l.asString).toList = l := rfl

/-- C6 counterexample: the crawler's URL normalization is not idempotent on
every URL.  For the scheme-less URL "example.com/x", `_normalize_url` returns
"://example.com/x" (urlparse places everything in `path` and the rebuild
prepends "://"), and normalizing that result again yields "://://example.com/x". -/
theorem c6_counterexample :
    normalizeUrl (normalizeUrl "example.com/x") ≠ normalizeUrl "example.com/x" ∧
    normalizeUrl "example.com/x" = "://example.com/x" ∧
    normalizeUrl (normalizeUrl "example.com/x") = "://://example.com/x" := by
  refine ⟨?_, ?_, ?_⟩ <;> decide

/-- C6 (amended): URL normalization is idempotent on every URL that `urlparse`
assigns a non-empty scheme (in particular every http/https URL), and on every
URL on which `urlparse` raises (normalization then returns its input
unchanged).  For scheme-less inputs idempotence fails, since the rebuild
prepends "://" on each pass. -/
theorem c6_amended (u : String)
    (h : (pyUrlparse u.toList []).scheme ≠ []) :
    normalizeUrl (normalizeUrl u) = normalizeUrl u := by
  by_cases hb : bracketMismatch (pyUrlparse u.toList []).netloc = true
  · have he : normalizeUrl u = u := by
      simp only [normalizeUrl]
      rw [if_pos hb]
    rw [he]
    exact he
  · obtain ⟨f1, f2, f3, f4, f5, f6, f7, f8, f9, f10, f11⟩ :=
      urlparse_facts u.toList h
    obtain ⟨n2, pa, hpa, hparse⟩ :=
      urlparse_rebuild (pyUrlparse u.toList []).scheme
        (pyUrlparse u.toList []).netloc (pyUrlparse u.toList []).path
        (pyUrlparse u.toList []).query f1 f2 f3 f4 f6 f7 f5 f8 f9 f10 f11
    have hnu : normalizeUrl u =
        (((pyUrlparse u.toList []).scheme ++ ':' :: '/' :: '/' ::
          (pyUrlparse u.toList []).netloc ++ (pyUrlparse u.toList []).path) ++
          (if (pyUrlparse u.toList []).query ≠ [] then
            '?' :: (pyUrlparse u.toList []).query else [])).asString := by
      simp only [normalizeUrl]
      rw [if_neg hb]
    have hshape : (((pyUrlparse u.toList []).scheme ++ ':' :: '/' :: '/' ::
          (pyUrlparse u.toList []).netloc ++ (pyUrlparse u.toList []).path) ++
          (if (pyUrlparse u.toList []).query ≠ [] then
            '?' :: (pyUrlparse u.toList []).query else [])) =
        (pyUrlparse u.toList []).scheme ++ ':' :: '/' :: '/' ::
          ((pyUrlparse u.toList []).netloc ++
            ((pyUrlparse u.toList []).path ++
             (if (pyUrlparse u.toList []).query ≠ [] then
               '?' :: (pyUrlparse u.toList []).query else []))) := by
      simp [List.append_assoc]
    rw [hnu]
    simp only [normalizeUrl, asString_toList]
    rw [hshape, hparse]
    dsimp only
    by_cases hb2 : bracketMismatch ((pyUrlparse u.toList []).netloc ++ n2) = true
    · rw [if_pos hb2]
    · rw [if_neg hb2]
      apply congrArg List.asString
      rw [hpa]
      simp [List.append_assoc]

theorem c6_amended_witness :
    (pyUrlparse ("http://a.com/x?y=1").toList []).scheme ≠ [] ∧
    normalizeUrl (normalizeUrl "http://a.com/x?y=1") =
      normalizeUrl "http://a.com/x?y=1" :=
  ⟨by decide, c6_amended "http://a.com/x?y=1" (by decide)⟩

end SurfaceDiscovery
